import Mathlib

/-!
Verification of the session-log repair engine of this repository.

Shallow embedding of:
* `fix-session.js` — the scan loop (`fixSession`), the findings lists, and the
  rewriter (`createFixedSession`);
* `deep-clean-session.js` — the v1 cleaner (`deepCleanSession`, `deepCleanEntry`);
* `deep-clean-session-v2.js` — the v2 cleaner (`deepCleanSession`,
  `preciselCleanEntry`) with its stateful global regex;
* `safe-session-utils.js` — `FileLock.acquire` / `FileLock.release` and
  `FileTransaction.begin` / `commit` / `rollback`.

Log lines are modelled as either a raw string together with the entry it
decodes to, or an opaque raw string when JSON decoding fails; the decode
relation is carried as data (the Reader's output), and
`JSON.parse (JSON.stringify e) = e` is the one modelling assumption used when
a freshly serialized entry is re-read.  Console output, the display-only
`changes`/`reason` strings and the write-only `pendingToolUses` list (dead
state with respect to every output of `fixSession`) are not modelled.
-/

namespace SessionRepair

/-- A content block: one element of a `content` array of a log entry. -/
inductive Block where
  | text (text : String)
  | toolUse (id : String) (name : String)
  | toolResult (tool_use_id : String) (is_error : Bool) (content : String)
  | other
deriving DecidableEq

/-- The `message` object of a log entry: a role and an optional content array. -/
structure Msg where
  role : String
  content : Option (List Block)
deriving DecidableEq

/-- One decoded log entry.  Fields that are absent in the underlying JSON
object are `none`; the synthetic repair record of `fix-session.js` uses the
top-level `role`/`content` fields (it has no `message` wrapper). -/
structure Entry where
  message : Option Msg := none
  role : Option String := none
  content : Option (List Block) := none
  type : Option String := none
  summary : Option String := none
  error : Option String := none
  output : Option String := none
  result : Option String := none
deriving DecidableEq

/-- One physical line of a session file as the line reader delivers it:
either it decodes (the decoded entry is carried next to the raw text) or it
does not. -/
inductive LLine where
  | parsed (raw : String) (entry : Entry)
  | unparsed (raw : String)
deriving DecidableEq

def LLine.rawOf : LLine → String
  | .parsed r _ => r
  | .unparsed r => r

/-! ### String utilities (JS `includes`, JSON serialization) -/

/-- `s.includes(pat)` on character lists: some suffix of `s` has `pat` as a
prefix. -/
def containsSubL (pat : List Char) : List Char → Bool
  | [] => pat.isEmpty
  | c :: rest => pat.isPrefixOf (c :: rest) || containsSubL pat rest

/-- JS `String.prototype.includes`. -/
def containsSub (s pat : String) : Bool := containsSubL pat.data s.data

def lb : String := "\x7b"
def rb : String := "\x7d"

def escChar (c : Char) : String :=
  if c = '"' then "\\\"" else if c = '\\' then "\\\\"
  else if c = '\n' then "\\n" else String.singleton c

def escStr (s : String) : String := String.join (s.data.map escChar)

/-- A JSON string literal. -/
def jstr (s : String) : String := "\"" ++ escStr s ++ "\""

def jbool (b : Bool) : String := if b then "true" else "false"

/-- `JSON.stringify` of one content block, with the key order the scripts use
when they build such objects.  Blocks of a kind the scripts never build are
rendered as an empty object. -/
def stringifyBlock : Block → String
  | .text t => lb ++ jstr "type" ++ ":" ++ jstr "text" ++ "," ++ jstr "text" ++ ":" ++ jstr t ++ rb
  | .toolUse id nm =>
      lb ++ jstr "type" ++ ":" ++ jstr "tool_use" ++ "," ++ jstr "id" ++ ":" ++ jstr id ++ ","
        ++ jstr "name" ++ ":" ++ jstr nm ++ rb
  | .toolResult tid err c =>
      lb ++ jstr "type" ++ ":" ++ jstr "tool_result" ++ "," ++ jstr "tool_use_id" ++ ":"
        ++ jstr tid ++ "," ++ jstr "is_error" ++ ":" ++ jbool err ++ ","
        ++ jstr "content" ++ ":" ++ jstr c ++ rb
  | .other => lb ++ rb

def stringifyBlocks (bs : List Block) : String :=
  "[" ++ String.intercalate "," (bs.map stringifyBlock) ++ "]"

def stringifyMsg (m : Msg) : String :=
  lb ++ jstr "role" ++ ":" ++ jstr m.role
    ++ (match m.content with
        | some bs => "," ++ jstr "content" ++ ":" ++ stringifyBlocks bs
        | none => "")
    ++ rb

def entryFields (e : Entry) : List String :=
  (match e.type with | some t => [jstr "type" ++ ":" ++ jstr t] | none => []) ++
  (match e.summary with | some s => [jstr "summary" ++ ":" ++ jstr s] | none => []) ++
  (match e.message with | some m => [jstr "message" ++ ":" ++ stringifyMsg m] | none => []) ++
  (match e.role with | some r => [jstr "role" ++ ":" ++ jstr r] | none => []) ++
  (match e.content with | some bs => [jstr "content" ++ ":" ++ stringifyBlocks bs] | none => []) ++
  (match e.error with | some s => [jstr "error" ++ ":" ++ jstr s] | none => []) ++
  (match e.output with | some s => [jstr "output" ++ ":" ++ jstr s] | none => []) ++
  (match e.result with | some s => [jstr "result" ++ ":" ++ jstr s] | none => [])

/-- `JSON.stringify` of an entry (present fields in canonical order). -/
def stringifyEntry (e : Entry) : String :=
  lb ++ String.intercalate "," (entryFields e) ++ rb

/-! ### Tool-block views of an entry -/

def blockUseId : Block → Option String
  | .toolUse id _ => some id
  | _ => none

def blockResultId : Block → Option String
  | .toolResult tid _ _ => some tid
  | _ => none

/-- Identifiers of `tool_use` blocks in `entry.message.content`. -/
def msgUses (e : Entry) : List String :=
  match e.message with
  | some m => (m.content.getD []).filterMap blockUseId
  | none => []

/-- Identifiers of `tool_use` blocks in top-level `entry.content`. -/
def topUses (e : Entry) : List String := (e.content.getD []).filterMap blockUseId

/-- `tool_use_id`s of `tool_result` blocks in `entry.message.content`. -/
def msgResults (e : Entry) : List String :=
  match e.message with
  | some m => (m.content.getD []).filterMap blockResultId
  | none => []

/-- `tool_use_id`s of `tool_result` blocks in top-level `entry.content`. -/
def topResults (e : Entry) : List String := (e.content.getD []).filterMap blockResultId

def entryUses (e : Entry) : List String := msgUses e ++ topUses e
def entryResults (e : Entry) : List String := msgResults e ++ topResults e

/-! ### `fixSession`: the scan loop -/

/-- One value of the `toolUseMap` of `fixSession`. -/
structure ToolInfo where
  useLineNum : Nat
  resultLineNum : Option Nat
deriving DecidableEq

/-- One element of the `lines` array of `fixSession` (only lines that decoded
are stored there). -/
structure SLine where
  lineNum : Nat
  entry : Entry
  raw : String
deriving DecidableEq

/-- The `toolUseMap`: a JS `Map` in insertion order. -/
abbrev TUMap := List (String × ToolInfo)

def mapGet (m : TUMap) (k : String) : Option ToolInfo :=
  match m with
  | [] => none
  | (k', v) :: rest => if k' = k then some v else mapGet rest k

/-- `Map.set`: update in place (keeping the insertion position) or append. -/
def mapSet (m : TUMap) (k : String) (v : ToolInfo) : TUMap :=
  match m with
  | [] => [(k, v)]
  | (k', v') :: rest => if k' = k then (k', v) :: rest else (k', v') :: mapSet rest k v

/-- Body of the inner loop of the "track tool_use messages" branch. -/
def scanUseStep (ln : Nat) (t : TUMap) (b : Block) : TUMap :=
  match b with
  | .toolUse id _ => mapSet t id ⟨ln, none⟩
  | _ => t

/-- The "track tool_use messages" branch of the scan loop. -/
def scanUse (ln : Nat) (e : Entry) (tum : TUMap) : TUMap :=
  match e.message with
  | some m =>
    if m.role = "assistant" then
      match m.content with
      | some bs => bs.foldl (scanUseStep ln) tum
      | none => tum
    else tum
  | none => tum

/-- Body of the inner loop of the "track tool_result messages" branch. -/
def scanResultStep (ln : Nat) (t : TUMap) (b : Block) : TUMap :=
  match b with
  | .toolResult tid _ _ =>
    if tid ≠ "" then
      match mapGet t tid with
      | some info => mapSet t tid ⟨info.useLineNum, some ln⟩
      | none => t
    else t
  | _ => t

/-- The "track tool_result messages" branch of the scan loop. -/
def scanResult (ln : Nat) (e : Entry) (tum : TUMap) : TUMap :=
  match e.message with
  | some m =>
    if m.role = "user" then
      match m.content with
      | some bs => bs.foldl (scanResultStep ln) tum
      | none => tum
    else tum
  | none => tum

structure ScanState where
  lineNum : Nat
  lines : List SLine
  tum : TUMap

/-- One iteration of the `for await (const line of rl)` loop of `fixSession`:
the line counter always advances, lines that fail to decode are only logged
(they are not stored in `lines`). -/
def scanStep (st : ScanState) (l : LLine) : ScanState :=
  let n := st.lineNum + 1
  match l with
  | .unparsed _ => ⟨n, st.lines, st.tum⟩
  | .parsed raw e =>
    ⟨n, st.lines ++ [⟨n, e, raw⟩], scanResult n e (scanUse n e st.tum)⟩

def scanLog (log : List LLine) : ScanState := log.foldl scanStep ⟨0, [], []⟩

def scanLines (log : List LLine) : List SLine := (scanLog log).lines

def scanTum (log : List LLine) : TUMap := (scanLog log).tum

/-! ### `fixSession`: the findings -/

inductive Issue where
  | missing (toolId : String) (useLineNum : Nat)
  | nonSeq (toolId : String) (useLineNum resultLineNum gap : Nat)
deriving DecidableEq

/-- "Check for orphaned tool uses". -/
def missingIssues (tum : TUMap) : List Issue :=
  tum.filterMap fun p =>
    match p.2.resultLineNum with
    | none => some (.missing p.1 p.2.useLineNum)
    | some _ => none

/-- `entry && entry.message && entry.message.role !== 'user'`. -/
def isNonUserMsg (e : Entry) : Bool :=
  match e.message with
  | some m => m.role ≠ "user"
  | none => false

/-- The `non_sequential` issues one `toolUseMap` entry contributes: for a
pair with a recorded result, one issue per index
`i ∈ [useLineNum, resultLineNum - 2]` whose stored line is a message of a
role other than `user`. -/
def nonSeqBlock (lines : List SLine) (p : String × ToolInfo) : List Issue :=
  match p.2.resultLineNum with
  | some rn =>
    if rn ≠ p.2.useLineNum + 1 then
      (List.range' p.2.useLineNum (rn - 1 - p.2.useLineNum)).filterMap fun i =>
        match lines[i]? with
        | some sl =>
          if isNonUserMsg sl.entry then
            some (.nonSeq p.1 p.2.useLineNum rn (rn - p.2.useLineNum - 1))
          else none
        | none => none
    else []
  | none => []

/-- "Check for non-sequential tool results". -/
def nonSeqIssues (lines : List SLine) (tum : TUMap) : List Issue :=
  tum.foldr (fun p acc => nonSeqBlock lines p ++ acc) []

def fixIssues (lines : List SLine) (tum : TUMap) : List Issue :=
  missingIssues tum ++ nonSeqIssues lines tum

/-! ### `createFixedSession`: the rewriter

The `issues` argument of the JS function is not consulted by its line
processing (only printed); the rewrite is driven by `lines` and
`toolUseMap`. -/

def synthText : String :=
  "Error: Tool execution was interrupted or failed. This is a synthetic error added during session repair."

/-- The synthetic error result object, exactly as built: top-level
`role`/`content`, no `message` wrapper. -/
def synthEntry (id : String) : Entry :=
  { role := some "user", content := some [.toolResult id true synthText] }

/-- The line `JSON.stringify(errorResult)` appends to the fixed session. -/
def synthLine (id : String) : LLine := .parsed (stringifyEntry (synthEntry id)) (synthEntry id)

/-- What is pushed right after a `tool_use` line: the stored raw line of the
recorded result (nothing when `lines[resultLineNum - 1]` is out of range), or
the synthetic error result. -/
def resultOrSynth (lines : List SLine) (tum : TUMap) (id : String) : List LLine :=
  match mapGet tum id with
  | some info =>
    match info.resultLineNum with
    | some rn =>
      match lines[rn - 1]? with
      | some rl => [.parsed rl.raw rl.entry]
      | none => []
    | none => [synthLine id]
  | none => [synthLine id]

/-- The body of the inner `for (const content of entry.message.content)` loop
of `createFixedSession`; the accumulator is
(pushed lines, `processedToolUses`, `hasToolUse`). -/
def useFoldStep (lines : List SLine) (tum : TUMap) (sl : SLine)
    (acc : List LLine × List String × Bool) (b : Block) : List LLine × List String × Bool :=
  match b with
  | .toolUse id _ =>
    if acc.2.1.contains id then acc
    else (acc.1 ++ (.parsed sl.raw sl.entry :: resultOrSynth lines tum id), acc.2.1 ++ [id], true)
  | _ => acc

/-- `isProcessedToolResult`. -/
def isProcResult (proc : List String) (e : Entry) : Bool :=
  match e.message with
  | some m =>
    m.role = "user" &&
      (m.content.getD []).any fun b =>
        match b with
        | .toolResult tid _ _ => proc.contains tid
        | _ => false
  | none => false

/-- Processing of one element of `lines` by `createFixedSession`: the
`tool_use` pass, then the pass-through push guarded by
`!hasToolUse && !isProcessedToolResult`. -/
def rewriteRecord (lines : List SLine) (tum : TUMap) (proc : List String) (sl : SLine) :
    List LLine × List String :=
  let step :=
    match sl.entry.message with
    | some m =>
      if m.role = "assistant" then
        match m.content with
        | some bs => bs.foldl (useFoldStep lines tum sl) ([], proc, false)
        | none => ([], proc, false)
      else ([], proc, false)
    | none => ([], proc, false)
  if !step.2.2 && !isProcResult step.2.1 sl.entry then
    (step.1 ++ [.parsed sl.raw sl.entry], step.2.1)
  else (step.1, step.2.1)

def rewriteGo (lines : List SLine) (tum : TUMap) (proc : List String) :
    List SLine → List LLine
  | [] => []
  | sl :: rest =>
    let r := rewriteRecord lines tum proc sl
    r.1 ++ rewriteGo lines tum r.2 rest

/-- The record sequence written to the `.fixed` file. -/
def createFixedSession (lines : List SLine) (tum : TUMap) : List LLine :=
  rewriteGo lines tum [] lines

/-- The whole `fixSession --auto` pipeline as a transformation of the file's
line sequence: the file is rewritten only when at least one issue was
found. -/
def fixRun (log : List LLine) : List LLine :=
  let st := scanLog log
  if (fixIssues st.lines st.tum).isEmpty then log
  else createFixedSession st.lines st.tum

/-! ### The adjacency invariant -/

def usesOfL : LLine → List String
  | .parsed _ e => entryUses e
  | .unparsed _ => []

def resultsOfL : LLine → List String
  | .parsed _ e => entryResults e
  | .unparsed _ => []

/-- The adjacency invariant on a record sequence: every record holding a
`tool_use` block is immediately followed by a record holding the matching
`tool_result` block. -/
def adjOK : List LLine → Bool
  | [] => true
  | [l] => (usesOfL l).isEmpty
  | l :: l' :: rest =>
    ((usesOfL l).all fun id => (resultsOfL l').contains id) && adjOK (l' :: rest)

/-! ### More string utilities (JS `split`, `trim`, `toLowerCase`, `join`)

Implemented over the character list backing a `String` so that concrete
counterexamples reduce inside the kernel. -/

def wsChar (c : Char) : Bool := c = ' ' || c = '\t' || c = '\n' || c = '\r'

def splitNlL : List Char → List (List Char)
  | [] => [[]]
  | c :: rest =>
    let r := splitNlL rest
    if c = '\n' then [] :: r
    else
      match r with
      | h :: t => (c :: h) :: t
      | [] => [[c]]

/-- JS `s.split('\n')`. -/
def splitLines (s : String) : List String := (splitNlL s.data).map fun l => ⟨l⟩

def trimL (l : List Char) : List Char :=
  ((l.dropWhile wsChar).reverse.dropWhile wsChar).reverse

/-- JS `s.trim()`. -/
def trimStr (s : String) : String := ⟨trimL s.data⟩

/-- JS `s.toLowerCase()` (ASCII). -/
def toLowerStr (s : String) : String := ⟨s.data.map Char.toLower⟩

/-- JS `lines.join('\n')`. -/
def joinNl (ls : List String) : String := ⟨List.intercalate [ '\n' ] (ls.map String.data)⟩

/-! ### `deep-clean-session.js` (v1) -/

/-- The module-level deny-list of `deep-clean-session.js` /
`deep-clean-session-v2.js`. -/
def PROBLEMATIC_TOOL_IDS : List String :=
  ["toolu_014F6R5piBxVrJdLbwTHigJW", "toolu_01JMxCAMPpQrn576vDkjCfDn"]

/-- Result of `deepCleanEntry` / `preciselCleanEntry` (the display-only
`reason`/`changes` strings are not modelled). -/
structure CleanResult where
  removed : Bool
  cleaned : Bool
  entry : Entry
deriving DecidableEq

/-- "Check if this is a tool_use with the problematic ID". -/
def hasPoisonedUse (e : Entry) (toolId : String) : Bool :=
  match e.message with
  | some m =>
    m.role = "assistant" &&
      (m.content.getD []).any fun b =>
        match b with
        | .toolUse id _ => id = toolId
        | _ => false
  | none => false

/-- "Check if this is a tool_result with the problematic ID". -/
def hasPoisonedResult (e : Entry) (toolId : String) : Bool :=
  match e.message with
  | some m =>
    m.role = "user" &&
      (m.content.getD []).any fun b =>
        match b with
        | .toolResult tid _ _ => tid = toolId
        | _ => false
  | none => false

/-- The v1 message-content cleaning loop (`splice`/`i--` rendered as list
recursion); returns the cleaned block list and the `cleaned` flag. -/
def v1CleanBlocks (toolId : String) : List Block → List Block × Bool
  | [] => ([], false)
  | b :: rest =>
    match b with
    | .text t =>
      if t ≠ "" && containsSub t toolId then
        let lines := splitLines t
        let filtered := lines.filter fun ln => !containsSub ln toolId
        if filtered.length < lines.length then
          let t' := trimStr (joinNl filtered)
          let r := v1CleanBlocks toolId rest
          if trimStr t' = "" then (r.1, true) else (Block.text t' :: r.1, true)
        else
          let r := v1CleanBlocks toolId rest
          (Block.text t :: r.1, r.2)
      else
        let r := v1CleanBlocks toolId rest
        (b :: r.1, r.2)
    | _ =>
      let r := v1CleanBlocks toolId rest
      (b :: r.1, r.2)

/-- The v1 cleaning of one optional string field (`error`/`output`/`result`). -/
def v1CleanStrField (toolId : String) (o : Option String) : Option String × Bool :=
  match o with
  | some s =>
    if s ≠ "" && containsSub s toolId then
      let lines := splitLines s
      let filtered := lines.filter fun ln => !containsSub ln toolId
      if filtered.length < lines.length then (some (trimStr (joinNl filtered)), true)
      else (o, false)
    else (o, false)
  | none => (none, false)

/-- `deepCleanEntry` of `deep-clean-session.js`. -/
def deepCleanEntry (e : Entry) (toolId : String) : CleanResult :=
  if hasPoisonedUse e toolId then ⟨true, false, e⟩
  else if hasPoisonedResult e toolId then ⟨true, false, e⟩
  else
    let msgStep :
        Option Msg × Bool :=
      match e.message with
      | some m =>
        match m.content with
        | some bs =>
          let r := v1CleanBlocks toolId bs
          (some ⟨m.role, some r.1⟩, r.2)
        | none => (e.message, false)
      | none => (none, false)
    let sumStep : Option String × Bool :=
      match e.type, e.summary with
      | some "summary", some s =>
        if s ≠ "" && containsSub s toolId then v1CleanStrField toolId (some s)
        else (e.summary, false)
      | _, _ => (e.summary, false)
    let errStep := v1CleanStrField toolId e.error
    let outStep := v1CleanStrField toolId e.output
    let resStep := v1CleanStrField toolId e.result
    ⟨false,
     msgStep.2 || sumStep.2 || errStep.2 || outStep.2 || resStep.2,
     { e with message := msgStep.1, summary := sumStep.1,
              error := errStep.1, output := outStep.1, result := resStep.1 }⟩

/-- The per-entry loop over `PROBLEMATIC_TOOL_IDS` of v1 `deepCleanSession`
(`break` on removal; each id is checked against, and cleaned from, the
*original* entry; a later id's cleaning overwrites `cleanedEntry`).  Returns
(`shouldRemove`, `cleanedEntry`, number of `totalCleaned` increments). -/
def cleanLoopV1 (e : Entry) : List String → Entry → Nat → Bool × Entry × Nat
  | [], cur, cnt => (false, cur, cnt)
  | tid :: rest, cur, cnt =>
    if containsSub (stringifyEntry e) tid then
      let r := deepCleanEntry e tid
      if r.removed then (true, cur, cnt)
      else if r.cleaned then cleanLoopV1 e rest r.entry (cnt + 1)
      else cleanLoopV1 e rest cur cnt
    else cleanLoopV1 e rest cur cnt

/-- The line loop of v1 `deepCleanSession`: blank lines are skipped, lines
that fail to decode are kept verbatim, other lines are re-serialized from the
(possibly cleaned) entry.  Returns (`cleanedLines`, `totalRemoved`,
`totalCleaned`). -/
def cleanLinesV1 : List LLine → List String × Nat × Nat
  | [] => ([], 0, 0)
  | l :: rest =>
    let acc := cleanLinesV1 rest
    if trimStr l.rawOf = "" then acc
    else
      match l with
      | .unparsed r => (r :: acc.1, acc.2.1, acc.2.2)
      | .parsed _ e =>
        let res := cleanLoopV1 e PROBLEMATIC_TOOL_IDS e 0
        if res.1 then (acc.1, acc.2.1 + 1, acc.2.2 + res.2.2)
        else (stringifyEntry res.2.1 :: acc.1, acc.2.1, acc.2.2 + res.2.2)

/-- The whole v1 `deepCleanSession --auto` pipeline as a transformation of
the file's line sequence: the cleaned sequence replaces the file only when
something was removed or cleaned. -/
def deepCleanRunV1 (log : List LLine) : List String :=
  let res := cleanLinesV1 log
  if res.2.1 > 0 || res.2.2 > 0 then res.1 else log.map LLine.rawOf

/-! ### The word-boundary regex of `deep-clean-session-v2.js`

`new RegExp("\\b" + toolId + "\\b", "g")`.  The `g` flag makes
`RegExp.prototype.test` stateful: a successful `test` leaves `lastIndex`
after the match, a failed `test` and `String.prototype.replace` reset it to
0.  The state is threaded explicitly. -/

/-- A JS regex word character (`\w`). -/
def isWordChar (c : Char) : Bool := c.isAlphanum || c = '_'

def wordOpt : Option Char → Bool
  | some c => isWordChar c
  | none => false

/-- A `\b` assertion between two (possibly absent) neighbouring characters. -/
def isBoundary (a b : Option Char) : Bool := wordOpt a != wordOpt b

/-- Does `\b<pat>\b` match at the head of `s`, where `prev` is the character
preceding `s` in the full subject string? -/
def bMatchHere (pat : List Char) (prev : Option Char) (s : List Char) : Bool :=
  pat.isPrefixOf s && isBoundary prev s.head? &&
    isBoundary pat.getLast? (s.drop pat.length).head?

/-- Position (≥ `start`) of the first `\b<pat>\b` match in the suffix `s`;
`pos` is the index of the head of `s` in the subject, `prev` its preceding
character. -/
def bFindFrom (pat : List Char) (prev : Option Char) (pos start : Nat) :
    List Char → Option Nat
  | [] => none
  | c :: rest =>
    if start ≤ pos && bMatchHere pat prev (c :: rest) then some pos
    else bFindFrom pat (some c) (pos + 1) start rest

/-- `toolIdRegex.test(s)` with the regex's `lastIndex` at `li`; returns the
result and the new `lastIndex`. -/
def gTest (pat s : String) (li : Nat) : Bool × Nat :=
  match bFindFrom pat.data none 0 li s.data with
  | some i => (true, i + pat.data.length)
  | none => (false, 0)

/-- `\b<pat>\b` occurs somewhere in `s` (a fresh-regex test). -/
def bContains (pat s : String) : Bool := (gTest pat s 0).1

/-- `s.replace(toolIdRegex, rep)`: replace every (leftmost, non-overlapping)
word-bounded occurrence. -/
def bReplaceAux (pat rep : List Char) (prev : Option Char) (s : List Char) :
    List Char :=
  match s with
  | [] => []
  | c :: rest =>
    if h : pat ≠ [] ∧ bMatchHere pat prev (c :: rest) then
      rep ++ bReplaceAux pat rep pat.getLast? ((c :: rest).drop pat.length)
    else c :: bReplaceAux pat rep (some c) rest
termination_by s.length
decreasing_by
  · simp only [List.length_drop, List.length_cons]
    have : 1 ≤ pat.length := List.length_pos.mpr h.1
    omega
  · simp [Nat.lt_succ_self]

def gReplace (pat rep s : String) : String := ⟨bReplaceAux pat.data rep.data none s.data⟩

/-! ### `deep-clean-session-v2.js` -/

/-- The "is this an error message about the tool" heuristic of
`preciselCleanEntry`. -/
def errHeuristic (t : String) : Bool :=
  let lower := toLowerStr t
  containsSub lower "error" || containsSub lower "tool_use" || containsSub lower "tool_result"

/-- The v2 message-content cleaning loop, threading the shared regex's
`lastIndex`; returns (blocks, `cleaned`, final `lastIndex`). -/
def v2CleanBlocks (toolId : String) : List Block → Nat → List Block × Bool × Nat
  | [], li => ([], false, li)
  | b :: rest, li =>
    match b with
    | .text t =>
      if t ≠ "" then
        let tr := gTest toolId t li
        if tr.1 then
          if errHeuristic t then
            let lines := splitLines t
            let filtered := lines.filter fun ln => !containsSub ln toolId
            if filtered.length < lines.length then
              let t' := trimStr (joinNl filtered)
              let r := v2CleanBlocks toolId rest tr.2
              if trimStr t' = "" then (r.1, true, r.2.2)
              else (Block.text t' :: r.1, true, r.2.2)
            else
              let r := v2CleanBlocks toolId rest tr.2
              (Block.text t :: r.1, r.2.1, r.2.2)
          else
            let t' := gReplace toolId "[REDACTED_TOOL_ID]" t
            let r := v2CleanBlocks toolId rest 0
            (Block.text t' :: r.1, true, r.2.2)
        else
          let r := v2CleanBlocks toolId rest tr.2
          (Block.text t :: r.1, r.2.1, r.2.2)
      else
        let r := v2CleanBlocks toolId rest li
        (b :: r.1, r.2.1, r.2.2)
    | _ =>
      let r := v2CleanBlocks toolId rest li
      (b :: r.1, r.2.1, r.2.2)

/-- The v2 summary cleaning ("only remove lines that are clearly about the
error"; the per-line token tests are case-sensitive here). -/
def v2CleanSummary (toolId : String) (ty sum : Option String) (li : Nat) :
    Option String × Bool :=
  match ty, sum with
  | some "summary", some s =>
    if s ≠ "" && (gTest toolId s li).1 then
      let lines := splitLines s
      let mapped := lines.map fun ln =>
        if containsSub ln toolId &&
            (containsSub ln "error" || containsSub ln "tool_use" || containsSub ln "tool_result")
        then "[Line about tool error removed]" else ln
      (some (trimStr (joinNl mapped)), true)
    else (sum, false)
  | _, _ => (sum, false)

/-- `preciselCleanEntry` of `deep-clean-session-v2.js`. -/
def preciselCleanEntry (e : Entry) (toolId : String) : CleanResult :=
  if hasPoisonedUse e toolId then ⟨true, false, e⟩
  else if hasPoisonedResult e toolId then ⟨true, false, e⟩
  else
    let msgStep : Option Msg × Bool × Nat :=
      match e.message with
      | some m =>
        match m.content with
        | some bs =>
          let r := v2CleanBlocks toolId bs 0
          (some ⟨m.role, some r.1⟩, r.2.1, r.2.2)
        | none => (e.message, false, 0)
      | none => (none, false, 0)
    let sumStep := v2CleanSummary toolId e.type e.summary msgStep.2.2
    ⟨false, msgStep.2.1 || sumStep.2,
     { e with message := msgStep.1, summary := sumStep.1 }⟩

/-- The per-entry loop over `PROBLEMATIC_TOOL_IDS` of v2 `deepCleanSession`
(no `includes` pre-check in v2; `break` on removal; each id is checked
against the *original* entry). -/
def cleanLoopV2 (e : Entry) : List String → Entry → Nat → Bool × Entry × Nat
  | [], cur, cnt => (false, cur, cnt)
  | tid :: rest, cur, cnt =>
    let r := preciselCleanEntry e tid
    if r.removed then (true, cur, cnt)
    else if r.cleaned then cleanLoopV2 e rest r.entry (cnt + 1)
    else cleanLoopV2 e rest cur cnt

/-- The line loop of v2 `deepCleanSession` over the working copy's lines;
returns (`cleanedLines`, `totalRemoved`, `totalCleaned`).  Re-serialized
entries are carried together with their decoding. -/
def deepCleanScanV2 : List LLine → List LLine × Nat × Nat
  | [] => ([], 0, 0)
  | l :: rest =>
    let acc := deepCleanScanV2 rest
    if trimStr l.rawOf = "" then acc
    else
      match l with
      | .unparsed r => (.unparsed r :: acc.1, acc.2.1, acc.2.2)
      | .parsed _ e =>
        let res := cleanLoopV2 e PROBLEMATIC_TOOL_IDS e 0
        if res.1 then (acc.1, acc.2.1 + 1, acc.2.2 + res.2.2)
        else (.parsed (stringifyEntry res.2.1) res.2.1 :: acc.1, acc.2.1, acc.2.2 + res.2.2)

/-! ### `safe-session-utils.js`: `FileLock` and `FileTransaction` -/

/-- The JSON object stored in a `.lock` file. -/
structure LockInfo where
  pid : Nat
  lockId : String
  timestamp : Nat
deriving DecidableEq

/-- State of a lock file path: absent, holding readable lock info, or
present but unreadable. -/
inductive LockFile where
  | absent
  | held (info : LockInfo)
  | corrupt
deriving DecidableEq

/-- What one iteration of the `acquire` polling loop does to an existing
lock file. -/
inductive StepRes where
  | acquired
  | removed
  | wait
deriving DecidableEq

/-- One iteration of `FileLock.acquire`'s `while` body: create the lock when
the path is free; on `EEXIST` delete the lock when it is older than 30
seconds (`lockAge > 30000`), otherwise delete it exactly when the recorded
holder process is dead, else sleep 100 ms; an unreadable lock file is
deleted. -/
def acquireStep (now : Nat) (alive : Nat → Bool) : LockFile → StepRes
  | .absent => .acquired
  | .held info =>
    if 30000 < now - info.timestamp then .removed
    else if alive info.pid then .wait else .removed
  | .corrupt => .removed

/-- The `acquire` polling loop against an environment `lockAt` describing
the lock file over time: deletion re-enters the loop at the same instant,
waiting advances the clock by 100 ms, and the loop gives up (returns
`false`) as soon as `now - startTime < timeout` fails.  `fuel` bounds the
number of iterations. -/
def acquireLoop (alive : Nat → Bool) (lockAt : Nat → LockFile)
    (startTime timeout : Nat) : Nat → Nat → Bool
  | 0, _ => false
  | fuel + 1, now =>
    if now - startTime < timeout then
      match acquireStep now alive (lockAt now) with
      | .acquired => true
      | .removed => acquireLoop alive lockAt startTime timeout fuel now
      | .wait => acquireLoop alive lockAt startTime timeout fuel (now + 100)
    else false

/-- `FileLock.release`: read the lock file and delete it only when the
stored `lockId` is this instance's own; every failure is swallowed. -/
def releaseLock (myId : String) : LockFile → LockFile
  | .absent => .absent
  | .held info => if info.lockId = myId then .absent else .held info
  | .corrupt => .corrupt

/-- The transaction-relevant slice of the filesystem: the original path, the
`.tx-backup` path, the `.tx-temp` path (file contents as line sequences) and
the `.lock` path. -/
structure FS where
  orig : Option (List LLine)
  backup : Option (List LLine)
  temp : Option (List LLine)
  lock : LockFile
deriving DecidableEq

structure TxState where
  fs : FS
  myLockId : String
  locked : Bool
deriving DecidableEq

/-- `FileTransaction.begin`: acquire the lock (modelled here as the
immediate-success path of `acquire`, i.e. the lock path is free; the
poll/stale logic is modelled by `acquireStep`/`acquireLoop`), then copy the
original to the backup path and to the working path.  `none` models a
thrown error (lock not acquired, or the original missing). -/
def beginTx (pid now : Nat) (t : TxState) : Option TxState :=
  match t.fs.lock with
  | .absent =>
    match t.fs.orig with
    | some c =>
      some { t with
        locked := true
        fs := { orig := some c, backup := some c, temp := some c,
                lock := .held ⟨pid, t.myLockId, now⟩ } }
    | none => none
  | _ => none

/-- A caller mutating the working path (the only path callers write between
`begin` and `commit`/`rollback`). -/
def writeTemp (t : TxState) (c : List LLine) : TxState :=
  { t with fs := { t.fs with temp := some c } }

/-- `FileTransaction.commit`: rename temp over the original, delete the
backup, release the lock. -/
def commitTx (t : TxState) : Option TxState :=
  if t.locked then
    match t.fs.temp with
    | some c =>
      some { t with
        locked := false
        fs := { orig := some c, temp := none, backup := none,
                lock := releaseLock t.myLockId t.fs.lock } }
    | none => none
  else none

/-- `FileTransaction.rollback`: a no-op when no transaction is open;
otherwise restore the original from the backup when the backup exists,
delete the backup and the working path, and always release the lock. -/
def rollbackTx (t : TxState) : TxState :=
  if t.locked then
    let fs1 :=
      match t.fs.backup with
      | some c => { t.fs with orig := some c, backup := none }
      | none => t.fs
    let fs2 :=
      match fs1.temp with
      | some _ => { fs1 with temp := none }
      | none => fs1
    { t with locked := false, fs := { fs2 with lock := releaseLock t.myLockId fs2.lock } }
  else t

/-- The v2 `deepCleanSession --auto` pipeline around its transaction: begin,
scan the working copy, commit the cleaned lines when something was removed
or cleaned, and roll back on zero findings. -/
def deepCleanV2Run (pid now : Nat) (t0 : TxState) : Option TxState :=
  match beginTx pid now t0 with
  | some t1 =>
    match t1.fs.temp with
    | some content =>
      let res := deepCleanScanV2 content
      if res.2.1 > 0 || res.2.2 > 0 then commitTx (writeTemp t1 res.1)
      else some (rollbackTx t1)
    | none => some (rollbackTx t1)
  | none => none

/-! ### Derived views used by theorem statements -/

def msgUsesL : LLine → List String
  | .parsed _ e => msgUses e
  | .unparsed _ => []

def topUsesL : LLine → List String
  | .parsed _ e => topUses e
  | .unparsed _ => []

def roleL : LLine → Option String
  | .parsed _ e => e.message.map Msg.role
  | .unparsed _ => none

def LLine.isParsedB : LLine → Bool
  | .parsed _ _ => true
  | .unparsed _ => false

/-- Invariant relating the scanner's `toolUseMap` to its `lines` array: a
recorded result position points (0-based, at `resultLineNum - 1`) at a
stored user-role message record holding the matching `tool_result` block. -/
def TumOK (lines : List SLine) (tum : TUMap) : Prop :=
  ∀ p ∈ tum, ∀ rn, p.2.resultLineNum = some rn →
    ∃ sl, lines[rn - 1]? = some sl ∧ sl.entry.message.map Msg.role = some "user" ∧
      p.1 ∈ msgResults sl.entry

/-- Well-formedness of stored records assumed by the adjacency proof:
`tool_use` blocks never occur in top-level `content`, and a record holding
one is an assistant message. -/
def LinesOK (lines : List SLine) : Prop :=
  ∀ sl ∈ lines, topUses sl.entry = [] ∧
    (msgUses sl.entry ≠ [] → sl.entry.message.map Msg.role = some "assistant")

/-- The Reader's view of a log: each line advances the line counter, and
exactly the decodable lines are kept (with their 1-based line numbers). -/
def readLines (n : Nat) : List LLine → List SLine
  | [] => []
  | .parsed r e :: rest => ⟨n + 1, e, r⟩ :: readLines (n + 1) rest
  | .unparsed _ :: rest => readLines (n + 1) rest

/-- The per-text-block transformation the amended C8 claim describes:
strip the lines mentioning the id when the block looks like an error
message (dropping the block when it becomes empty), redact word-bounded
occurrences otherwise; other blocks are untouched. -/
def textStep (toolId : String) : Block → Option Block
  | .text t =>
    if t ≠ "" && bContains toolId t then
      if errHeuristic t then
        let lines := splitLines t
        let filtered := lines.filter fun ln => !containsSub ln toolId
        if filtered.length < lines.length then
          let t' := trimStr (joinNl filtered)
          if trimStr t' = "" then none else some (.text t')
        else some (.text t)
      else some (.text (gReplace toolId "[REDACTED_TOOL_ID]" t))
    else some (.text t)
  | b => some b

/-- Does a text block hold a word-bounded occurrence of the id? -/
def matchingText (toolId : String) : Block → Bool
  | .text t => t ≠ "" && bContains toolId t
  | _ => false

/-! ### Concrete logs used by counterexamples and witnesses -/

def poisonedId1 : String := "toolu_014F6R5piBxVrJdLbwTHigJW"

def exUseEntry : Entry := { message := some ⟨"assistant", some [.toolUse "t1" "Bash"]⟩ }
def exAsstText : Entry := { message := some ⟨"assistant", some [.text "thinking"]⟩ }
def exResEntry : Entry := { message := some ⟨"user", some [.toolResult "t1" false "ok"]⟩ }
def exUserText : Entry := { message := some ⟨"user", some [.text "hello"]⟩ }
def exTwoUses : Entry :=
  { message := some ⟨"assistant", some [.toolUse "tA" "Bash", .toolUse "tB" "Read"]⟩ }

/-- Scenario A: invocation, an intervening assistant text record, then the
matching result. -/
def scenarioALog : List LLine :=
  [.parsed "W0" exUseEntry, .parsed "W1" exAsstText, .parsed "W2" exResEntry]

/-- One assistant record carrying two `tool_use` blocks, no results. -/
def twoUseLog : List LLine := [.parsed "L0" exTwoUses]

/-- Scenario B: an invocation with no result anywhere. -/
def missingLog : List LLine := [.parsed "U0" exUseEntry]

/-- Invocation, an intervening *user* text record, then the matching
result. -/
def userGapLog : List LLine :=
  [.parsed "V0" exUseEntry, .parsed "V1" exUserText, .parsed "V2" exResEntry]

/-- An invocation with no result, followed by a line that fails to decode. -/
def fixDropLog : List LLine := [.parsed "U0" exUseEntry, .unparsed "this is not json"]

def sumEntry : Entry := { type := some "summary", summary := some "hi" }

/-- A raw line that decodes to `sumEntry` but is not in `JSON.stringify`'s
canonical spacing. -/
def sumRawSpaced : String := "\x7b\"type\": \"summary\", \"summary\": \"hi\"\x7d"

/-- A user record holding a `tool_result` for a poisoned id. -/
def poisonResEntry : Entry :=
  { message := some ⟨"user", some [.toolResult poisonedId1 false "x"]⟩ }

/-- A log whose first record is untouched by every cleaning action and whose
second record is removed by the v1 cleaner. -/
def v1CexLog : List LLine :=
  [.parsed sumRawSpaced sumEntry,
   .parsed (stringifyEntry poisonResEntry) poisonResEntry]

/-- A record whose single text block is an error line mentioning a poisoned
id. -/
def errTextEntry : Entry :=
  { message := some ⟨"assistant", some [.text ("error " ++ poisonedId1 ++ " failed")]⟩ }

/-- Number of text blocks of a record's message content holding a
word-bounded occurrence of the id. -/
def matchCount (toolId : String) (e : Entry) : Nat :=
  match e.message with
  | some m => ((m.content.getD []).filter (matchingText toolId)).length
  | none => 0

/-- A record whose single text block merely mentions a poisoned id (no error
wording). -/
def redactTextEntry : Entry :=
  { message := some ⟨"assistant", some [.text ("see " ++ poisonedId1 ++ " ok")]⟩ }

/-- A one-record log whose single raw line is already in canonical
`JSON.stringify` form. -/
def v1WitLog : List LLine := [.parsed (stringifyEntry sumEntry) sumEntry]

/-- A log starting with an undecodable line. -/
def c4WitLog : List LLine := [.unparsed "oops", .parsed "U0" exUseEntry]

def txW0 : TxState := ⟨⟨some [.parsed "o" sumEntry], none, none, .absent⟩, "w", false⟩

def txW1 : TxState :=
  ⟨⟨some [.parsed "o" sumEntry], some [.parsed "o" sumEntry], some [.parsed "o" sumEntry],
    .held ⟨1, "w", 0⟩⟩, "w", true⟩

/-! ## Theorems -/

set_option maxRecDepth 100000

/-! ### C6 — rollback atomicity -/

/-- C6: if a transaction on a file completes `begin()` (state `BACKED_UP`)
and fails before `commit()` — modelled as an arbitrary mutation of the
working path — then after `rollback()` the original path holds its
pre-`begin` contents byte for byte, the working path and the backup are
gone, and the lock is released. -/
theorem c6_rollback_atomicity (t0 t1 : TxState) (c d : List LLine) (pid now : Nat)
    (horig : t0.fs.orig = some c)
    (hbegin : beginTx pid now t0 = some t1) :
    (rollbackTx (writeTemp t1 d)).fs.orig = some c ∧
    (rollbackTx (writeTemp t1 d)).fs.temp = none ∧
    (rollbackTx (writeTemp t1 d)).fs.backup = none ∧
    (rollbackTx (writeTemp t1 d)).fs.lock = .absent ∧
    (rollbackTx (writeTemp t1 d)).locked = false := by
  unfold beginTx at hbegin
  cases hL : t0.fs.lock <;> rw [hL] at hbegin
  case held info => exact absurd hbegin (by simp)
  case corrupt => exact absurd hbegin (by simp)
  case absent =>
    rw [horig] at hbegin
    simp only [Option.some.injEq] at hbegin
    subst hbegin
    simp [rollbackTx, writeTemp, releaseLock]

/-- Witness for C6 at a concrete transaction. -/
theorem c6_rollback_atomicity_witness :
    txW0.fs.orig = some [.parsed "o" sumEntry] ∧
    beginTx 1 0 txW0 = some txW1 ∧
    ((rollbackTx (writeTemp txW1 [])).fs.orig = some [.parsed "o" sumEntry] ∧
     (rollbackTx (writeTemp txW1 [])).fs.temp = none ∧
     (rollbackTx (writeTemp txW1 [])).fs.backup = none ∧
     (rollbackTx (writeTemp txW1 [])).fs.lock = .absent ∧
     (rollbackTx (writeTemp txW1 [])).locked = false) :=
  ⟨by decide, by decide,
   c6_rollback_atomicity txW0 txW1 [.parsed "o" sumEntry] [] 1 0 (by decide) (by decide)⟩

/-! ### C7 — stale-lock handling in `FileLock.acquire` -/

/-- C7 as stated is false: a lock whose recorded timestamp is more than 30
seconds old is deleted by a competing `acquire` even though its holder
process is still alive (the liveness check only guards the under-30-seconds
branch). -/
theorem c7_counterexample :
    acquireStep 40000 (fun _ => true) (.held ⟨1, "other", 9000⟩) = .removed ∧
    (fun _ : Nat => true) 1 = true ∧ 30000 < 40000 - 9000 := by
  refine ⟨by decide, rfl, by decide⟩

/-- C7 amended: an existing readable lock is removed exactly when its age
exceeds 30 seconds **or** its recorded holder is dead; a lock refreshed
within 30 seconds whose holder is alive is never deleted — the competitor
waits 100 ms and re-polls until its bounded timeout expires (default
5000 ms), ending with `acquire` returning failure. -/
theorem c7_stale_lock_amended :
    (∀ (now : Nat) (alive : Nat → Bool) (info : LockInfo),
      acquireStep now alive (.held info) = .removed ↔
        (30000 < now - info.timestamp ∨ alive info.pid = false)) ∧
    (∀ (alive : Nat → Bool) (lockAt : Nat → LockFile) (start timeout fuel now : Nat),
      (∀ t, ∃ info, lockAt t = .held info ∧ t - info.timestamp ≤ 30000 ∧
        alive info.pid = true) →
      (∀ t, acquireStep t alive (lockAt t) = .wait) ∧
      acquireLoop alive lockAt start timeout fuel now = false) := by
  constructor
  · intro now alive info
    simp only [acquireStep]
    split_ifs with h1 h2
    · simp [h1]
    · simp [h1, h2]
    · simp [h1, h2]
  · intro alive lockAt start timeout fuel now h
    have hstep : ∀ t, acquireStep t alive (lockAt t) = .wait := by
      intro t
      obtain ⟨info, hl, hage, hal⟩ := h t
      rw [hl]
      simp [acquireStep, Nat.not_lt.mpr hage, hal]
    refine ⟨hstep, ?_⟩
    induction fuel generalizing now with
    | zero => rfl
    | succ n ih =>
      simp only [acquireLoop]
      split
      · rw [hstep now]
        exact ih _
      · rfl

/-- Witness for C7 amended: a holder that keeps its lock refreshed and
alive; the competitor with the default 5-second timeout never removes it
and times out. -/
theorem c7_stale_lock_amended_witness :
    (∀ t : Nat, ∃ info, (fun u : Nat => LockFile.held ⟨1, "h", u⟩) t = .held info ∧
      t - info.timestamp ≤ 30000 ∧ (fun _ : Nat => true) info.pid = true) ∧
    ((∀ t, acquireStep t (fun _ => true) ((fun u : Nat => LockFile.held ⟨1, "h", u⟩) t) = .wait) ∧
     acquireLoop (fun _ => true) (fun u : Nat => .held ⟨1, "h", u⟩) 0 5000 100 0 = false) :=
  ⟨fun t => ⟨⟨1, "h", t⟩, rfl, by simp, rfl⟩,
   c7_stale_lock_amended.2 (fun _ => true) (fun u : Nat => .held ⟨1, "h", u⟩) 0 5000 100 0
     (fun t => ⟨⟨1, "h", t⟩, rfl, by simp, rfl⟩)⟩

/-! ### C9 — `FileLock.release` deletes only its own lock -/

/-- C9: `release` leaves the lock path alone unless the stored `lockId` is
this instance's own — in particular it never removes another holder's lock —
and when it does act, the lock it removes carried its own id.  (`release`
swallows every error, which the model renders by totality.) -/
theorem c9_release_only_owner (myId : String) (lf : LockFile) :
    (∀ info, lf = .held info → info.lockId ≠ myId → releaseLock myId lf = lf) ∧
    (releaseLock myId lf = lf ∨
      ∃ info, lf = .held info ∧ info.lockId = myId ∧ releaseLock myId lf = .absent) := by
  cases lf with
  | absent => exact ⟨fun _ h => absurd h (by simp), Or.inl rfl⟩
  | corrupt => exact ⟨fun _ h => absurd h (by simp), Or.inl rfl⟩
  | held info =>
    by_cases h : info.lockId = myId
    · refine ⟨fun info' heq hne => ?_, Or.inr ⟨info, rfl, h, by simp [releaseLock, h]⟩⟩
      cases heq
      exact absurd h hne
    · exact ⟨fun _ _ _ => by simp [releaseLock, h], Or.inl (by simp [releaseLock, h])⟩

/-- Witness for C9: releasing against a lock held under a different id
leaves it in place. -/
theorem c9_release_only_owner_witness :
    releaseLock "a" (.held ⟨1, "b", 0⟩) = .held ⟨1, "b", 0⟩ ∧
    (releaseLock "a" (.held ⟨1, "a", 0⟩) = .held ⟨1, "a", 0⟩ ∨
      ∃ info, LockFile.held ⟨1, "a", 0⟩ = .held info ∧ info.lockId = "a" ∧
        releaseLock "a" (.held ⟨1, "a", 0⟩) = .absent) :=
  ⟨(c9_release_only_owner "a" (.held ⟨1, "b", 0⟩)).1 ⟨1, "b", 0⟩ rfl (by decide),
   (c9_release_only_owner "a" (.held ⟨1, "a", 0⟩)).2⟩

/-! ### C10 — zero findings roll the v2 transaction back -/

/-- C10: when the v2 deep clean finds nothing to remove and nothing to
clean, it rolls its transaction back: the run succeeds, the original path is
byte-identical to its pre-run contents, and the working copy, the backup and
the lock it created are gone. -/
theorem c10_zero_findings_rollback (t0 : TxState) (c : List LLine) (pid now : Nat)
    (horig : t0.fs.orig = some c) (hlock : t0.fs.lock = .absent)
    (hzero : (deepCleanScanV2 c).2 = (0, 0)) :
    ∃ t2, deepCleanV2Run pid now t0 = some t2 ∧
      t2.fs.orig = some c ∧ t2.fs.temp = none ∧ t2.fs.backup = none ∧
      t2.fs.lock = .absent ∧ t2.locked = false := by
  refine ⟨⟨⟨some c, none, none, .absent⟩, t0.myLockId, false⟩, ?_, rfl, rfl, rfl, rfl, rfl⟩
  unfold deepCleanV2Run beginTx
  rw [hlock, horig]
  simp only
  have h1 : (deepCleanScanV2 c).2.1 = 0 := by rw [hzero]
  have h2 : (deepCleanScanV2 c).2.2 = 0 := by rw [hzero]
  simp [h1, h2, rollbackTx, releaseLock]

/-- Witness for C10: a one-record session with no poisoned ids. -/
theorem c10_zero_findings_rollback_witness :
    txW0.fs.orig = some [.parsed "o" sumEntry] ∧ txW0.fs.lock = .absent ∧
    (deepCleanScanV2 [.parsed "o" sumEntry]).2 = (0, 0) ∧
    ∃ t2, deepCleanV2Run 1 0 txW0 = some t2 ∧
      t2.fs.orig = some [.parsed "o" sumEntry] ∧ t2.fs.temp = none ∧
      t2.fs.backup = none ∧ t2.fs.lock = .absent ∧ t2.locked = false :=
  ⟨by decide, by decide, by decide,
   c10_zero_findings_rollback txW0 [.parsed "o" sumEntry] 1 0 (by decide) (by decide) (by decide)⟩

/-! ### C2 — repair is not idempotent (code bug) -/

/-- C2: repair is **not** idempotent, because the synthetic error result is
written as a bare `{role, content}` object without the `message` wrapper the
scan loop inspects.  On a log with one unanswered invocation, the first run
appends a synthetic result, yet a re-scan of the output still reports the
invocation as missing, and a second run appends a second synthetic result:
`fixRun (fixRun log) ≠ fixRun log`.  (`CRITICAL_FIXES_APPLIED.md` documents
the missing `message` wrapper as fixed, which `fix-session.js` contradicts.) -/
theorem c2_not_idempotent_bug :
    fixRun (fixRun missingLog) ≠ fixRun missingLog ∧
    fixIssues (scanLines (fixRun missingLog)) (scanTum (fixRun missingLog)) ≠ [] ∧
    (fixRun missingLog).length = 2 ∧ (fixRun (fixRun missingLog)).length = 3 := by
  refine ⟨by decide, by decide, by decide, by decide⟩

/-! ### C5 — non-adjacent pairs are not always reported -/

/-- C5 as stated is false: for the pair `t1` with `useLineNum = 1` and
`resultLineNum = 3` (not adjacent), the scanner reports **no**
`non_sequential` finding, because the only intervening record is a user-role
message and the detection loop demands an intervening message whose role is
not `user`. -/
theorem c5_counterexample :
    mapGet (scanTum userGapLog) "t1" = some ⟨1, some 3⟩ ∧
    (3 : Nat) ≠ 1 + 1 ∧
    fixIssues (scanLines userGapLog) (scanTum userGapLog) = [] := by
  refine ⟨by decide, by decide, by decide⟩

/-! ### Helper lemmas about the `toolUseMap` -/

theorem mapGet_mem (k : String) (v : ToolInfo) :
    ∀ m : TUMap, mapGet m k = some v → (k, v) ∈ m := by
  intro m
  induction m with
  | nil => intro h; simp [mapGet] at h
  | cons p rest ih =>
    obtain ⟨k', v'⟩ := p
    intro h
    simp only [mapGet] at h
    by_cases hk : k' = k
    · rw [if_pos hk] at h
      cases h
      rw [← hk]
      exact List.mem_cons_self _ _
    · rw [if_neg hk] at h
      exact List.mem_cons_of_mem _ (ih h)

theorem mem_mapSet (k : String) (v : ToolInfo) (p : String × ToolInfo) :
    ∀ m : TUMap, p ∈ mapSet m k v → p = (k, v) ∨ p ∈ m := by
  intro m
  induction m with
  | nil => intro h; simpa [mapSet] using h
  | cons q rest ih =>
    obtain ⟨k', v'⟩ := q
    intro h
    simp only [mapSet] at h
    by_cases hk : k' = k
    · rw [if_pos hk] at h
      rcases List.mem_cons.mp h with h | h
      · left; rw [h, ← hk]
      · right; exact List.mem_cons_of_mem _ h
    · rw [if_neg hk] at h
      rcases List.mem_cons.mp h with h | h
      · right; rw [h]; exact List.mem_cons_self _ _
      · rcases ih h with h | h
        · left; exact h
        · right; exact List.mem_cons_of_mem _ h

theorem keys_mapSet_sub (k : String) (v : ToolInfo) :
    ∀ (m : TUMap) (x : String), x ∈ (mapSet m k v).map Prod.fst →
      x = k ∨ x ∈ m.map Prod.fst := by
  intro m x hx
  obtain ⟨p, hp, hpx⟩ := List.mem_map.mp hx
  rcases mem_mapSet k v p m hp with h | h
  · left; rw [← hpx, h]
  · right; exact List.mem_map.mpr ⟨p, h, hpx⟩

theorem nodup_keys_mapSet (k : String) (v : ToolInfo) :
    ∀ m : TUMap, (m.map Prod.fst).Nodup → ((mapSet m k v).map Prod.fst).Nodup := by
  intro m
  induction m with
  | nil => intro _; simp [mapSet]
  | cons q rest ih =>
    obtain ⟨k', v'⟩ := q
    intro h
    simp only [List.map_cons, List.nodup_cons] at h
    simp only [mapSet]
    by_cases hk : k' = k
    · rw [if_pos hk]
      simp only [List.map_cons, List.nodup_cons]
      exact h
    · rw [if_neg hk]
      simp only [List.map_cons, List.nodup_cons]
      refine ⟨?_, ih h.2⟩
      intro hmem
      rcases keys_mapSet_sub k v rest k' hmem with h' | h'
      · exact hk h'
      · exact h.1 h'

theorem mapGet_of_mem_nodup (m : TUMap) (hnd : (m.map Prod.fst).Nodup) :
    ∀ p ∈ m, mapGet m p.1 = some p.2 := by
  induction m with
  | nil => intro p hp; simp at hp
  | cons q rest ih =>
    obtain ⟨k', v'⟩ := q
    intro p hp
    simp only [List.map_cons, List.nodup_cons] at hnd
    rcases List.mem_cons.mp hp with h | h
    · rw [h]
      simp [mapGet]
    · have hne : k' ≠ p.1 := by
        intro heq
        exact hnd.1 (List.mem_map.mpr ⟨p, h, heq.symm⟩)
      simp only [mapGet, if_neg hne]
      exact ih hnd.2 p h

theorem scanUseFold_keys_nodup (ln : Nat) :
    ∀ (bs : List Block) (t : TUMap), (t.map Prod.fst).Nodup →
      (((bs.foldl (scanUseStep ln) t)).map Prod.fst).Nodup := by
  intro bs
  induction bs with
  | nil => intro t h; exact h
  | cons b rest ih =>
    intro t h
    simp only [List.foldl_cons]
    apply ih
    cases b with
    | toolUse id nm => exact nodup_keys_mapSet _ _ _ h
    | text t' => exact h
    | toolResult tid err c => exact h
    | other => exact h

theorem scanResultFold_keys_nodup (ln : Nat) :
    ∀ (bs : List Block) (t : TUMap), (t.map Prod.fst).Nodup →
      (((bs.foldl (scanResultStep ln) t)).map Prod.fst).Nodup := by
  intro bs
  induction bs with
  | nil => intro t h; exact h
  | cons b rest ih =>
    intro t h
    simp only [List.foldl_cons]
    apply ih
    cases b with
    | toolResult tid err c =>
      simp only [scanResultStep]
      by_cases ht : tid ≠ ""
      · rw [if_pos ht]
        cases hg : mapGet t tid with
        | none => exact h
        | some info => exact nodup_keys_mapSet _ _ _ h
      · rw [if_neg ht]; exact h
    | text t' => exact h
    | toolUse id nm => exact h
    | other => exact h

theorem scanUse_keys_nodup (ln : Nat) (e : Entry) (t : TUMap)
    (h : (t.map Prod.fst).Nodup) : ((scanUse ln e t).map Prod.fst).Nodup := by
  cases hm : e.message with
  | none => simpa [scanUse, hm] using h
  | some m =>
    by_cases hr : m.role = "assistant"
    · cases hc : m.content with
      | none => simpa [scanUse, hm, hr, hc] using h
      | some bs =>
        have heq : scanUse ln e t = bs.foldl (scanUseStep ln) t := by
          simp [scanUse, hm, hr, hc]
        rw [heq]
        exact scanUseFold_keys_nodup ln bs t h
    · simpa [scanUse, hm, hr] using h

theorem scanResult_keys_nodup (ln : Nat) (e : Entry) (t : TUMap)
    (h : (t.map Prod.fst).Nodup) : ((scanResult ln e t).map Prod.fst).Nodup := by
  cases hm : e.message with
  | none => simpa [scanResult, hm] using h
  | some m =>
    by_cases hr : m.role = "user"
    · cases hc : m.content with
      | none => simpa [scanResult, hm, hr, hc] using h
      | some bs =>
        have heq : scanResult ln e t = bs.foldl (scanResultStep ln) t := by
          simp [scanResult, hm, hr, hc]
        rw [heq]
        exact scanResultFold_keys_nodup ln bs t h
    · simpa [scanResult, hm, hr] using h

theorem scanTum_keys_nodup (log : List LLine) :
    ((scanTum log).map Prod.fst).Nodup := by
  suffices h : ∀ st : ScanState, (st.tum.map Prod.fst).Nodup →
      (((log.foldl scanStep st).tum).map Prod.fst).Nodup by
    exact h ⟨0, [], []⟩ (by simp)
  induction log with
  | nil => intro st h; exact h
  | cons l rest ih =>
    intro st h
    simp only [List.foldl_cons]
    apply ih
    cases l with
    | unparsed r => exact h
    | parsed raw e =>
      exact scanResult_keys_nodup _ _ _ (scanUse_keys_nodup _ _ _ h)

theorem mem_foldr_append {α β : Type} (f : α → List β) (l : List α) (x : β) :
    x ∈ l.foldr (fun p acc => f p ++ acc) [] ↔ ∃ p ∈ l, x ∈ f p := by
  induction l with
  | nil => simp
  | cons a t ih =>
    simp only [List.foldr_cons, List.mem_append, ih, List.mem_cons]
    constructor
    · rintro (h | ⟨p, hp, hx⟩)
      · exact ⟨a, Or.inl rfl, h⟩
      · exact ⟨p, Or.inr hp, hx⟩
    · rintro ⟨p, hp | hp, hx⟩
      · left; rw [← hp]; exact hx
      · right; exact ⟨p, hp, hx⟩

/-! ### Helper lemmas for the adjacency proof -/

theorem adjOK_append (b : List LLine) (hb : adjOK b = true) :
    ∀ a, adjOK a = true → adjOK (a ++ b) = true := by
  intro a
  induction a with
  | nil => intro _; simpa
  | cons l t ih =>
    intro ha
    cases t with
    | nil =>
      cases b with
      | nil => simpa using ha
      | cons l' bs =>
        have hu : (usesOfL l).isEmpty = true := by simpa [adjOK] using ha
        have hu' : usesOfL l = [] := List.isEmpty_iff.mp hu
        simp only [List.singleton_append, adjOK, hu', List.all_nil, Bool.true_and]
        exact hb
    | cons l' t' =>
      have ha' := ha
      simp only [adjOK, Bool.and_eq_true] at ha'
      simp only [List.cons_append, adjOK, Bool.and_eq_true]
      refine ⟨ha'.1, ?_⟩
      have := ih ha'.2
      simpa using this

theorem tumOK_append_line (lines : List SLine) (x : SLine) (tum : TUMap)
    (h : TumOK lines tum) : TumOK (lines ++ [x]) tum := by
  intro p hp rn hrn
  obtain ⟨sl, hget, hrole, hmem⟩ := h p hp rn hrn
  refine ⟨sl, ?_, hrole, hmem⟩
  have hlt : rn - 1 < lines.length := (List.getElem?_eq_some.mp hget).1
  rw [List.getElem?_append_left hlt]
  exact hget

theorem scanUseFold_tumOK (lines : List SLine) (ln : Nat) :
    ∀ (bs : List Block) (t : TUMap), TumOK lines t →
      TumOK lines (bs.foldl (scanUseStep ln) t) := by
  intro bs
  induction bs with
  | nil => intro t h; exact h
  | cons b rest ih =>
    intro t h
    simp only [List.foldl_cons]
    apply ih
    cases b with
    | toolUse id nm =>
      intro p hp rn hrn
      rcases mem_mapSet _ _ _ _ hp with hnew | hold
      · rw [hnew] at hrn
        simp [scanUseStep] at hrn
      · exact h p hold rn hrn
    | text t' => exact h
    | toolResult tid err c => exact h
    | other => exact h

theorem scanUse_tumOK (lines : List SLine) (ln : Nat) (e : Entry) (tum : TUMap)
    (h : TumOK lines tum) : TumOK lines (scanUse ln e tum) := by
  cases hm : e.message with
  | none => simpa [scanUse, hm] using h
  | some m =>
    by_cases hr : m.role = "assistant"
    · cases hc : m.content with
      | none => simpa [scanUse, hm, hr, hc] using h
      | some bs =>
        have heq : scanUse ln e tum = bs.foldl (scanUseStep ln) tum := by
          simp [scanUse, hm, hr, hc]
        rw [heq]
        exact scanUseFold_tumOK lines ln bs tum h
    · simpa [scanUse, hm, hr] using h

theorem scanResultFold_tumOK (lines : List SLine) (ln : Nat) (e : Entry)
    (hev : ∃ sl, lines[ln - 1]? = some sl ∧ sl.entry = e)
    (hrole : e.message.map Msg.role = some "user") :
    ∀ (bs : List Block) (t : TUMap),
      (∀ tid err c, Block.toolResult tid err c ∈ bs → tid ∈ msgResults e) →
      TumOK lines t → TumOK lines (bs.foldl (scanResultStep ln) t) := by
  intro bs
  induction bs with
  | nil => intro t _ h; exact h
  | cons b rest ih =>
    intro t hsub h
    simp only [List.foldl_cons]
    apply ih
    · intro tid err c hmem
      exact hsub tid err c (List.mem_cons_of_mem _ hmem)
    · cases b with
      | toolResult tid err c =>
        simp only [scanResultStep]
        by_cases ht : tid ≠ ""
        · rw [if_pos ht]
          cases hg : mapGet t tid with
          | none => exact h
          | some info =>
            intro p hp rn hrn
            rcases mem_mapSet _ _ _ _ hp with hnew | hold
            · rw [hnew] at hrn ⊢
              simp only at hrn
              cases hrn
              obtain ⟨sl, hget, hsl⟩ := hev
              refine ⟨sl, hget, ?_, ?_⟩
              · rw [hsl]
                exact hrole
              · rw [hsl]
                exact hsub tid err c (List.mem_cons_self _ _)
            · exact h p hold rn hrn
        · rw [if_neg ht]; exact h
      | text t' => exact h
      | toolUse id nm => exact h
      | other => exact h

theorem scanResult_tumOK (lines : List SLine) (ln : Nat) (e : Entry) (tum : TUMap)
    (hev : ∃ sl, lines[ln - 1]? = some sl ∧ sl.entry = e)
    (h : TumOK lines tum) : TumOK lines (scanResult ln e tum) := by
  cases hm : e.message with
  | none => simpa [scanResult, hm] using h
  | some m =>
    by_cases hr : m.role = "user"
    · cases hc : m.content with
      | none => simpa [scanResult, hm, hr, hc] using h
      | some bs =>
        have heq : scanResult ln e tum = bs.foldl (scanResultStep ln) tum := by
          simp [scanResult, hm, hr, hc]
        rw [heq]
        apply scanResultFold_tumOK lines ln e hev _ bs tum _ h
        · rw [hm]
          simp [hr]
        · intro tid err c hmem
          have hmr : msgResults e = bs.filterMap blockResultId := by
            simp [msgResults, hm, hc]
          rw [hmr]
          exact List.mem_filterMap.mpr ⟨_, hmem, rfl⟩
    · simpa [scanResult, hm, hr] using h

theorem scanFold_inv (log : List LLine) :
    ∀ st : ScanState,
      (∀ l ∈ log, l.isParsedB = true) →
      st.lines.length = st.lineNum → TumOK st.lines st.tum →
      (log.foldl scanStep st).lines.length = (log.foldl scanStep st).lineNum ∧
      TumOK (log.foldl scanStep st).lines (log.foldl scanStep st).tum := by
  induction log with
  | nil => intro st _ h1 h2; exact ⟨h1, h2⟩
  | cons l rest ih =>
    intro st hp h1 h2
    cases l with
    | unparsed r => exact absurd (hp _ (List.mem_cons_self _ _)) (by simp [LLine.isParsedB])
    | parsed raw e =>
      simp only [List.foldl_cons]
      apply ih _ (fun x hx => hp x (List.mem_cons_of_mem _ hx))
      · simp [scanStep, h1]
      · simp only [scanStep]
        apply scanResult_tumOK
        · refine ⟨⟨st.lineNum + 1, e, raw⟩, ?_, rfl⟩
          simp only [Nat.add_sub_cancel]
          rw [← h1]
          exact List.getElem?_concat_length _ _
        · exact scanUse_tumOK _ _ _ _ (tumOK_append_line _ _ _ h2)

theorem scan_tumOK (log : List LLine) (hp : ∀ l ∈ log, l.isParsedB = true) :
    TumOK (scanLines log) (scanTum log) :=
  (scanFold_inv log ⟨0, [], []⟩ hp rfl (by intro p hp'; simp at hp')).2

theorem scanFold_lines (log : List LLine) :
    ∀ st : ScanState, (log.foldl scanStep st).lines = st.lines ++ readLines st.lineNum log := by
  induction log with
  | nil => intro st; simp [readLines]
  | cons l rest ih =>
    intro st
    cases l with
    | parsed raw e =>
      simp only [List.foldl_cons, scanStep, readLines]
      rw [ih]
      simp
    | unparsed r =>
      simp only [List.foldl_cons, scanStep, readLines]
      rw [ih]

theorem scanLines_eq (log : List LLine) : scanLines log = readLines 0 log := by
  have := scanFold_lines log ⟨0, [], []⟩
  simpa [scanLines, scanLog] using this

theorem readLines_mem_src (log : List LLine) :
    ∀ (n : Nat) (sl : SLine), sl ∈ readLines n log → LLine.parsed sl.raw sl.entry ∈ log := by
  induction log with
  | nil => intro n sl h; simp [readLines] at h
  | cons l rest ih =>
    intro n sl h
    cases l with
    | parsed raw e =>
      simp only [readLines] at h
      rcases List.mem_cons.mp h with h | h
      · rw [h]; exact List.mem_cons_self _ _
      · exact List.mem_cons_of_mem _ (ih _ _ h)
    | unparsed r =>
      simp only [readLines] at h
      exact List.mem_cons_of_mem _ (ih _ _ h)

theorem readLines_map_uses (log : List LLine) (hp : ∀ l ∈ log, l.isParsedB = true) :
    ∀ n, (readLines n log).map (fun sl => msgUses sl.entry) = log.map msgUsesL := by
  induction log with
  | nil => intro n; simp [readLines]
  | cons l rest ih =>
    intro n
    cases l with
    | parsed raw e =>
      simp only [readLines, List.map_cons, msgUsesL]
      rw [ih (fun x hx => hp x (List.mem_cons_of_mem _ hx))]
    | unparsed r =>
      exact absurd (hp _ (List.mem_cons_self _ _)) (by simp [LLine.isParsedB])

theorem useFoldStep_nonuse (lines : List SLine) (tum : TUMap) (sl : SLine)
    (b : Block) (hb : blockUseId b = none) (acc : List LLine × List String × Bool) :
    useFoldStep lines tum sl acc b = acc := by
  cases b with
  | toolUse id nm => simp [blockUseId] at hb
  | text t => rfl
  | toolResult tid err c => rfl
  | other => rfl

theorem useFold_noop (lines : List SLine) (tum : TUMap) (sl : SLine) :
    ∀ (bs : List Block), (∀ b ∈ bs, blockUseId b = none) →
      ∀ acc, bs.foldl (useFoldStep lines tum sl) acc = acc := by
  intro bs
  induction bs with
  | nil => intro _ acc; rfl
  | cons b rest ih =>
    intro h acc
    simp only [List.foldl_cons]
    rw [useFoldStep_nonuse lines tum sl b (h b (List.mem_cons_self _ _))]
    exact ih (fun x hx => h x (List.mem_cons_of_mem _ hx)) acc

theorem filterMap_single {α β : Type} (f : α → Option β) (y : β) :
    ∀ l : List α, l.filterMap f = [y] →
      ∃ l₁ x l₂, l = l₁ ++ x :: l₂ ∧ f x = some y ∧
        (∀ a ∈ l₁, f a = none) ∧ (∀ a ∈ l₂, f a = none) := by
  intro l
  induction l with
  | nil => intro h; simp at h
  | cons a t ih =>
    intro h
    cases hfa : f a with
    | none =>
      rw [List.filterMap_cons_none hfa] at h
      obtain ⟨l₁, x, l₂, hl, hx, h₁, h₂⟩ := ih h
      refine ⟨a :: l₁, x, l₂, by rw [hl]; rfl, hx, ?_, h₂⟩
      intro a' ha'
      rcases List.mem_cons.mp ha' with ha' | ha'
      · rw [ha']; exact hfa
      · exact h₁ a' ha'
    | some b =>
      rw [List.filterMap_cons_some hfa] at h
      have hb : b = y ∧ t.filterMap f = [] := by
        constructor
        · exact (List.cons_eq_cons.mp h).1
        · exact (List.cons_eq_cons.mp h).2
      refine ⟨[], a, t, rfl, by rw [hfa, hb.1], by intro a' ha'; simp at ha', ?_⟩
      exact List.filterMap_eq_nil_iff.mp hb.2

theorem useFold_single (lines : List SLine) (tum : TUMap) (sl : SLine)
    (l₁ l₂ : List Block) (id nm : String) (proc : List String)
    (h₁ : ∀ b ∈ l₁, blockUseId b = none) (h₂ : ∀ b ∈ l₂, blockUseId b = none)
    (hid : id ∉ proc) :
    (l₁ ++ Block.toolUse id nm :: l₂).foldl (useFoldStep lines tum sl) ([], proc, false) =
      (.parsed sl.raw sl.entry :: resultOrSynth lines tum id, proc ++ [id], true) := by
  rw [List.foldl_append, useFold_noop lines tum sl l₁ h₁]
  simp only [List.foldl_cons]
  have hstep : useFoldStep lines tum sl ([], proc, false) (Block.toolUse id nm) =
      (.parsed sl.raw sl.entry :: resultOrSynth lines tum id, proc ++ [id], true) := by
    simp [useFoldStep, hid]
  rw [hstep]
  exact useFold_noop lines tum sl l₂ h₂ _

theorem rewriteRecord_noUse (lines : List SLine) (tum : TUMap) (proc : List String)
    (sl : SLine) (h : msgUses sl.entry = []) :
    rewriteRecord lines tum proc sl =
      (if isProcResult proc sl.entry then ([], proc) else ([.parsed sl.raw sl.entry], proc)) := by
  have hstep :
      (match sl.entry.message with
        | some m =>
          if m.role = "assistant" then
            match m.content with
            | some bs => bs.foldl (useFoldStep lines tum sl) ([], proc, false)
            | none => (([] : List LLine), proc, false)
          else (([] : List LLine), proc, false)
        | none => (([] : List LLine), proc, false)) = (([] : List LLine), proc, false) := by
    cases hm : sl.entry.message with
    | none => rfl
    | some m =>
      by_cases hr : m.role = "assistant"
      · cases hc : m.content with
        | none => simp [hr, hc]
        | some bs =>
          have hbs : ∀ b ∈ bs, blockUseId b = none := by
            apply List.filterMap_eq_nil_iff.mp
            have hmu : msgUses sl.entry = bs.filterMap blockUseId := by
              simp [msgUses, hm, hc]
            rw [← hmu, h]
          simp only [hr, if_true, hc]
          exact useFold_noop lines tum sl bs hbs _
      · simp [hr]
  unfold rewriteRecord
  rw [hstep]
  by_cases hp : isProcResult proc sl.entry
  · simp [hp]
  · simp [hp]

theorem rewriteRecord_single (lines : List SLine) (tum : TUMap) (proc : List String)
    (sl : SLine) (m : Msg) (id : String)
    (hm : sl.entry.message = some m) (hr : m.role = "assistant")
    (hu : msgUses sl.entry = [id]) (hid : id ∉ proc) :
    rewriteRecord lines tum proc sl =
      (.parsed sl.raw sl.entry :: resultOrSynth lines tum id, proc ++ [id]) := by
  cases hc : m.content with
  | none =>
    exfalso
    have : msgUses sl.entry = [] := by simp [msgUses, hm, hc]
    rw [this] at hu
    exact absurd hu (by simp)
  | some bs =>
    have hbs : bs.filterMap blockUseId = [id] := by
      have : msgUses sl.entry = bs.filterMap blockUseId := by simp [msgUses, hm, hc]
      rw [← this, hu]
    obtain ⟨l₁, x, l₂, hl, hx, h₁, h₂⟩ := filterMap_single blockUseId id bs hbs
    obtain ⟨nm, rfl⟩ : ∃ nm, x = Block.toolUse id nm := by
      cases x with
      | toolUse id' nm =>
        refine ⟨nm, ?_⟩
        simp only [blockUseId, Option.some.injEq] at hx
        rw [hx]
      | text t => simp [blockUseId] at hx
      | toolResult tid err c => simp [blockUseId] at hx
      | other => simp [blockUseId] at hx
    have hfold : bs.foldl (useFoldStep lines tum sl) ([], proc, false) =
        (.parsed sl.raw sl.entry :: resultOrSynth lines tum id, proc ++ [id], true) := by
      rw [hl]
      exact useFold_single lines tum sl l₁ l₂ id nm proc h₁ h₂ hid
    have hproc : isProcResult (proc ++ [id]) sl.entry = false := by
      simp only [isProcResult, hm, hr]
      simp
    unfold rewriteRecord
    rw [hm]
    simp only [hr, if_true, hc, hfold, hproc]
    simp

theorem resultOrSynth_good (lines : List SLine) (tum : TUMap) (id : String)
    (hTum : TumOK lines tum) (hLines : LinesOK lines) :
    ∃ R, resultOrSynth lines tum id = [R] ∧ id ∈ resultsOfL R ∧ usesOfL R = [] := by
  cases hg : mapGet tum id with
  | none =>
    refine ⟨synthLine id, by simp [resultOrSynth, hg], ?_, ?_⟩
    · simp [synthLine, resultsOfL, entryResults, msgResults, topResults, synthEntry,
        blockResultId]
    · simp [synthLine, usesOfL, entryUses, msgUses, topUses, synthEntry, blockUseId]
  | some info =>
    cases hrn : info.resultLineNum with
    | none =>
      refine ⟨synthLine id, by simp [resultOrSynth, hg, hrn], ?_, ?_⟩
      · simp [synthLine, resultsOfL, entryResults, msgResults, topResults, synthEntry,
          blockResultId]
      · simp [synthLine, usesOfL, entryUses, msgUses, topUses, synthEntry, blockUseId]
    | some rn =>
      obtain ⟨sl', hget, hrole, hmem⟩ := hTum (id, info) (mapGet_mem _ _ _ hg) rn hrn
      refine ⟨.parsed sl'.raw sl'.entry, by simp [resultOrSynth, hg, hrn, hget], ?_, ?_⟩
      · simp only [resultsOfL, entryResults]
        exact List.mem_append_left _ hmem
      · have hL := hLines sl' (List.getElem?_mem hget)
        have hmu : msgUses sl'.entry = [] := by
          by_contra hne
          have hcontra := hL.2 hne
          rw [hrole] at hcontra
          exact absurd hcontra (by decide)
        simp only [usesOfL, entryUses, hmu, hL.1, List.append_nil]

theorem rewriteGo_cons (lines : List SLine) (tum : TUMap) (proc : List String)
    (sl : SLine) (rest : List SLine) :
    rewriteGo lines tum proc (sl :: rest) =
      (rewriteRecord lines tum proc sl).1 ++
        rewriteGo lines tum (rewriteRecord lines tum proc sl).2 rest := rfl

theorem rewriteGo_adjOK (lines : List SLine) (tum : TUMap)
    (hTum : TumOK lines tum) (hLines : LinesOK lines) :
    ∀ (suffix : List SLine) (proc : List String),
      (∀ sl ∈ suffix, topUses sl.entry = [] ∧ (msgUses sl.entry).length ≤ 1 ∧
        (msgUses sl.entry ≠ [] → sl.entry.message.map Msg.role = some "assistant")) →
      (suffix.map fun sl => msgUses sl.entry).flatten.Nodup →
      (∀ id ∈ proc, ∀ sl ∈ suffix, id ∉ msgUses sl.entry) →
      adjOK (rewriteGo lines tum proc suffix) = true := by
  intro suffix
  induction suffix with
  | nil => intro proc _ _ _; rfl
  | cons sl rest ih =>
    intro proc hsuf hnd hfresh
    have hp := hsuf sl (List.mem_cons_self _ _)
    have hsuf' : ∀ x ∈ rest, topUses x.entry = [] ∧ (msgUses x.entry).length ≤ 1 ∧
        (msgUses x.entry ≠ [] → x.entry.message.map Msg.role = some "assistant") :=
      fun x hx => hsuf x (List.mem_cons_of_mem _ hx)
    have hndflat : (msgUses sl.entry ++ (rest.map fun x => msgUses x.entry).flatten).Nodup := by
      simpa [List.map_cons, List.flatten_cons] using hnd
    have hnd' : (rest.map fun x => msgUses x.entry).flatten.Nodup :=
      (List.nodup_append.mp hndflat).2.1
    rcases hlen : msgUses sl.entry with _ | ⟨id, tl⟩
    · -- record without tool_use blocks
      have hrw := rewriteRecord_noUse lines tum proc sl hlen
      rw [rewriteGo_cons, hrw]
      have hrest := ih proc hsuf' hnd'
        (fun i hi x hx => hfresh i hi x (List.mem_cons_of_mem _ hx))
      by_cases hpr : isProcResult proc sl.entry
      · simpa [hpr] using hrest
      · simp only [if_neg hpr]
        apply adjOK_append _ hrest
        simp [adjOK, usesOfL, entryUses, hlen, hp.1]
    · -- exactly one tool_use block
      have htl : tl = [] := by
        have hlength := hp.2.1
        rw [hlen] at hlength
        simpa using hlength
      subst htl
      have hu : msgUses sl.entry = [id] := hlen
      have hrole : sl.entry.message.map Msg.role = some "assistant" :=
        hp.2.2 (by rw [hu]; simp)
      obtain ⟨m, hm, hmrole⟩ : ∃ m, sl.entry.message = some m ∧ m.role = "assistant" := by
        rcases hx : sl.entry.message with _ | m
        · rw [hx] at hrole; simp at hrole
        · rw [hx] at hrole
          simp only [Option.map_some', Option.some.injEq] at hrole
          exact ⟨m, rfl, hrole⟩
      have hidnotin : id ∉ proc := by
        intro hin
        have := hfresh id hin sl (List.mem_cons_self _ _)
        rw [hu] at this
        simp at this
      have hrw := rewriteRecord_single lines tum proc sl m id hm hmrole hu hidnotin
      obtain ⟨R, hres, hRmem, hRuses⟩ := resultOrSynth_good lines tum id hTum hLines
      have hfresh' : ∀ i ∈ proc ++ [id], ∀ x ∈ rest, i ∉ msgUses x.entry := by
        intro i hi x hx
        rcases List.mem_append.mp hi with h | h
        · exact hfresh i h x (List.mem_cons_of_mem _ hx)
        · have hii : i = id := by simpa using h
          subst hii
          intro hmemx
          have hdisj := (List.nodup_append.mp hndflat).2.2
          have hin1 : i ∈ msgUses sl.entry := by rw [hu]; exact List.mem_cons_self _ _
          have hin2 : i ∈ (rest.map fun x => msgUses x.entry).flatten :=
            List.mem_flatten.mpr ⟨msgUses x.entry, List.mem_map_of_mem _ hx, hmemx⟩
          exact hdisj hin1 hin2
      have hrest := ih (proc ++ [id]) hsuf' hnd' hfresh'
      rw [rewriteGo_cons, hrw]
      simp only [hres]
      apply adjOK_append _ hrest
      have husesSelf : usesOfL (.parsed sl.raw sl.entry) = [id] := by
        simp [usesOfL, entryUses, hu, hp.1]
      simp [adjOK, husesSelf, hRuses, hRmem]

/-- C5 amended: for a pairing with both positions known, a `non_sequential`
finding for that `toolId` is reported **iff** the pair is non-adjacent *and*
some record strictly between the invocation line and the result line is a
decoded message whose role is not `user`; adjacent pairs, and non-adjacent
pairs whose intervening records are all user messages, summaries or
undecodable lines, yield no finding. -/
theorem c5_nonseq_amended (log : List LLine) (tid : String) (use rn : Nat)
    (hget : mapGet (scanTum log) tid = some ⟨use, some rn⟩) :
    (∃ g, Issue.nonSeq tid use rn g ∈ fixIssues (scanLines log) (scanTum log)) ↔
      (rn ≠ use + 1 ∧ ∃ i, use ≤ i ∧ i < rn - 1 ∧
        ∃ sl, (scanLines log)[i]? = some sl ∧ isNonUserMsg sl.entry = true) := by
  constructor
  · rintro ⟨g, hg⟩
    unfold fixIssues at hg
    rcases List.mem_append.mp hg with h | h
    · exfalso
      obtain ⟨p, _, hfp⟩ := List.mem_filterMap.mp h
      cases hres : p.2.resultLineNum with
      | none => rw [hres] at hfp; simp at hfp
      | some r => rw [hres] at hfp; simp at hfp
    · obtain ⟨p, hp, hx⟩ := (mem_foldr_append _ _ _).mp h
      unfold nonSeqBlock at hx
      cases hres : p.2.resultLineNum with
      | none => rw [hres] at hx; simp at hx
      | some r =>
        rw [hres] at hx
        dsimp only at hx
        by_cases hadj : r ≠ p.2.useLineNum + 1
        · rw [if_pos hadj] at hx
          obtain ⟨i, hi, hfi⟩ := List.mem_filterMap.mp hx
          cases hsl : (scanLines log)[i]? with
          | none => rw [hsl] at hfi; cases hfi
          | some sl =>
            rw [hsl] at hfi
            dsimp only at hfi
            by_cases hnu : isNonUserMsg sl.entry = true
            · rw [if_pos hnu] at hfi
              simp only [Option.some.injEq, Issue.nonSeq.injEq] at hfi
              obtain ⟨htid, huse, hrn, _⟩ := hfi
              have hbounds := List.mem_range'_1.mp hi
              refine ⟨by rw [← hrn, ← huse]; exact hadj, i, ?_, ?_, sl, hsl, hnu⟩
              · rw [← huse]; exact hbounds.1
              · have := hbounds.2
                omega
            · rw [if_neg hnu] at hfi
              cases hfi
        · rw [if_neg hadj] at hx
          simp at hx
  · rintro ⟨hadj, i, hle, hlt, sl, hsl, hnu⟩
    refine ⟨rn - use - 1, ?_⟩
    unfold fixIssues
    apply List.mem_append_right
    apply (mem_foldr_append _ _ _).mpr
    refine ⟨(tid, ⟨use, some rn⟩), mapGet_mem _ _ _ hget, ?_⟩
    unfold nonSeqBlock
    simp only
    rw [if_pos hadj]
    apply List.mem_filterMap.mpr
    refine ⟨i, ?_, ?_⟩
    · exact List.mem_range'_1.mpr ⟨hle, by omega⟩
    · rw [hsl]
      dsimp only
      rw [if_pos hnu]

/-- Witness for C5 amended at Scenario A: the non-adjacent pair `t1` with an
intervening assistant record is reported. -/
theorem c5_nonseq_amended_witness :
    mapGet (scanTum scenarioALog) "t1" = some ⟨1, some 3⟩ ∧
    ((∃ g, Issue.nonSeq "t1" 1 3 g ∈ fixIssues (scanLines scenarioALog) (scanTum scenarioALog)) ↔
      ((3 : Nat) ≠ 1 + 1 ∧ ∃ i, 1 ≤ i ∧ i < 3 - 1 ∧
        ∃ sl, (scanLines scenarioALog)[i]? = some sl ∧ isNonUserMsg sl.entry = true)) :=
  ⟨by decide, c5_nonseq_amended scenarioALog "t1" 1 3 (by decide)⟩

/-! ### C1 — adjacency of the rewriter's output -/

/-- C1 as stated is false: on a record holding two `tool_use` blocks the
rewriter pushes the raw record once per block, so the first copy (which
holds both invocations) is followed by a record answering only the first
invocation. -/
theorem c1_counterexample :
    adjOK (createFixedSession (scanLines twoUseLog) (scanTum twoUseLog)) = false := by
  decide

/-- C1 amended: on every well-formed log — all lines decode, every record
holds at most one `tool_use` block, `tool_use` blocks occur only in
assistant-role message content (never in top-level `content`), and tool ids
are pairwise distinct — the sequence produced by `createFixedSession`
satisfies the adjacency invariant: every record holding a `tool_use` block
is immediately followed by a record holding the matching `tool_result`.  (On
a record with two `tool_use` blocks the invariant fails; the rewriter is
invoked only when the scan reported at least one issue.) -/
theorem c1_adjacency_amended (log : List LLine)
    (hp : ∀ l ∈ log, l.isParsedB = true)
    (h1 : ∀ l ∈ log, (msgUsesL l).length ≤ 1)
    (h2 : ∀ l ∈ log, topUsesL l = [])
    (h3 : ∀ l ∈ log, msgUsesL l ≠ [] → roleL l = some "assistant")
    (h4 : (log.map msgUsesL).flatten.Nodup) :
    adjOK (createFixedSession (scanLines log) (scanTum log)) = true := by
  have hmem : ∀ sl ∈ scanLines log, LLine.parsed sl.raw sl.entry ∈ log := by
    intro sl hsl
    rw [scanLines_eq] at hsl
    exact readLines_mem_src log 0 sl hsl
  have hTum := scan_tumOK log hp
  have hLines : LinesOK (scanLines log) := by
    intro sl hsl
    have hl := hmem sl hsl
    exact ⟨h2 _ hl, h3 _ hl⟩
  unfold createFixedSession
  apply rewriteGo_adjOK (scanLines log) (scanTum log) hTum hLines (scanLines log) []
  · intro sl hsl
    have hl := hmem sl hsl
    exact ⟨h2 _ hl, h1 _ hl, h3 _ hl⟩
  · rw [scanLines_eq, readLines_map_uses log hp 0]
    exact h4
  · intro i hi
    simp at hi

/-- Witness for C1 amended at Scenario A (invocation, intervening assistant
text, result): the rewriter's output satisfies the adjacency invariant. -/
theorem c1_adjacency_amended_witness :
    (∀ l ∈ scenarioALog, l.isParsedB = true) ∧
    (∀ l ∈ scenarioALog, (msgUsesL l).length ≤ 1) ∧
    (∀ l ∈ scenarioALog, topUsesL l = []) ∧
    (∀ l ∈ scenarioALog, msgUsesL l ≠ [] → roleL l = some "assistant") ∧
    (scenarioALog.map msgUsesL).flatten.Nodup ∧
    adjOK (createFixedSession (scanLines scenarioALog) (scanTum scenarioALog)) = true :=
  ⟨by decide, by decide, by decide, by decide, by decide,
   c1_adjacency_amended scenarioALog (by decide) (by decide) (by decide) (by decide) (by decide)⟩

/-! ### Helper lemmas for content preservation -/

theorem isProcResult_of_noResults (proc : List String) (e : Entry)
    (h : msgResults e = []) : isProcResult proc e = false := by
  cases hm : e.message with
  | none => simp [isProcResult, hm]
  | some m =>
    have hall : ∀ b ∈ m.content.getD [], blockResultId b = none := by
      apply List.filterMap_eq_nil_iff.mp
      have hmr : msgResults e = (m.content.getD []).filterMap blockResultId := by
        simp [msgResults, hm]
      rw [← hmr, h]
    simp only [isProcResult, hm]
    simp only [Bool.and_eq_false_iff]
    right
    apply List.any_eq_false.mpr
    intro b hb
    cases b with
    | toolResult tid err c => exact absurd (hall _ hb) (by simp [blockResultId])
    | text t => simp
    | toolUse id nm => simp
    | other => simp

theorem readLines_mem_of_src (raw : String) (e : Entry) :
    ∀ (log : List LLine) (n : Nat), LLine.parsed raw e ∈ log →
      ∃ ln, (⟨ln, e, raw⟩ : SLine) ∈ readLines n log := by
  intro log
  induction log with
  | nil => intro n h; simp at h
  | cons l rest ih =>
    intro n h
    rcases List.mem_cons.mp h with heq | htl
    · clear h
      cases l with
      | parsed r' e' =>
        have hr : r' = raw ∧ e' = e := by
          have := heq.symm
          simp only [LLine.parsed.injEq] at this
          exact this
        refine ⟨n + 1, ?_⟩
        rw [hr.1, hr.2]
        simp [readLines]
      | unparsed r' => simp at heq
    · clear h
      cases l with
      | parsed r' e' =>
        obtain ⟨ln, hln⟩ := ih (n + 1) htl
        exact ⟨ln, by simp [readLines, hln]⟩
      | unparsed r' =>
        obtain ⟨ln, hln⟩ := ih (n + 1) htl
        exact ⟨ln, by simp [readLines, hln]⟩

theorem rewriteGo_keeps (lines : List SLine) (tum : TUMap) :
    ∀ (suffix : List SLine) (proc : List String) (sl : SLine),
      sl ∈ suffix → msgUses sl.entry = [] → msgResults sl.entry = [] →
      LLine.parsed sl.raw sl.entry ∈ rewriteGo lines tum proc suffix := by
  intro suffix
  induction suffix with
  | nil => intro proc sl h; simp at h
  | cons x rest ih =>
    intro proc sl hmem hu hr
    rw [rewriteGo_cons]
    rcases List.mem_cons.mp hmem with h | h
    · subst h
      rw [rewriteRecord_noUse lines tum proc sl hu]
      rw [isProcResult_of_noResults proc sl.entry hr]
      simp
    · exact List.mem_append_right _ (ih _ sl h hu hr)

theorem cleanLoopV1_noop (e : Entry) :
    ∀ (ids : List String) (cur : Entry) (cnt : Nat),
      (∀ tid ∈ ids, containsSub (stringifyEntry e) tid = false) →
      cleanLoopV1 e ids cur cnt = (false, cur, cnt) := by
  intro ids
  induction ids with
  | nil => intro cur cnt _; rfl
  | cons tid rest ih =>
    intro cur cnt h
    have h0 := h tid (List.mem_cons_self _ _)
    simp only [cleanLoopV1, h0]
    simp only [Bool.false_eq_true, if_false]
    exact ih cur cnt fun x hx => h x (List.mem_cons_of_mem _ hx)

theorem cleanLinesV1_keeps_parsed (raw : String) (e : Entry)
    (hnb : trimStr raw ≠ "")
    (hclean : ∀ tid ∈ PROBLEMATIC_TOOL_IDS, containsSub (stringifyEntry e) tid = false)
    (hcanon : stringifyEntry e = raw) :
    ∀ log : List LLine, LLine.parsed raw e ∈ log → raw ∈ (cleanLinesV1 log).1 := by
  intro log
  induction log with
  | nil => intro h; simp at h
  | cons l rest ih =>
    intro h
    rcases List.mem_cons.mp h with h | h
    · subst h
      simp only [cleanLinesV1, LLine.rawOf]
      rw [if_neg hnb]
      rw [cleanLoopV1_noop e PROBLEMATIC_TOOL_IDS e 0 hclean]
      simp only
      rw [hcanon]
      exact List.mem_cons_self _ _
    · have hrest := ih h
      simp only [cleanLinesV1]
      by_cases hb : trimStr l.rawOf = ""
      · rw [if_pos hb]; exact hrest
      · rw [if_neg hb]
        cases l with
        | unparsed r => exact List.mem_cons_of_mem _ hrest
        | parsed r e' =>
          by_cases hrem : (cleanLoopV1 e' PROBLEMATIC_TOOL_IDS e' 0).1 = true
          · simp only [hrem, if_true]; exact hrest
          · simp only [hrem, Bool.false_eq_true, if_false]
            exact List.mem_cons_of_mem _ hrest

theorem cleanLinesV1_keeps_unparsed (r : String) (hnb : trimStr r ≠ "") :
    ∀ log : List LLine, LLine.unparsed r ∈ log → r ∈ (cleanLinesV1 log).1 := by
  intro log
  induction log with
  | nil => intro h; simp at h
  | cons l rest ih =>
    intro h
    rcases List.mem_cons.mp h with h | h
    · subst h
      simp only [cleanLinesV1, LLine.rawOf]
      rw [if_neg hnb]
      exact List.mem_cons_self _ _
    · have hrest := ih h
      simp only [cleanLinesV1]
      by_cases hb : trimStr l.rawOf = ""
      · rw [if_pos hb]; exact hrest
      · rw [if_neg hb]
        cases l with
        | unparsed r' => exact List.mem_cons_of_mem _ hrest
        | parsed r' e' =>
          by_cases hrem : (cleanLoopV1 e' PROBLEMATIC_TOOL_IDS e' 0).1 = true
          · simp only [hrem, if_true]; exact hrest
          · simp only [hrem, Bool.false_eq_true, if_false]
            exact List.mem_cons_of_mem _ hrest

/-! ### C3 — untouched records and byte-identical output -/

/-- C3 as stated is false for the deep-clean pass: the summary record of
`v1CexLog` is touched by no cleaning action (its per-id loop removes and
cleans nothing), yet the pass re-serializes it from the decoded entry, so
its spaced raw line is absent from the output byte for byte. -/
theorem c3_counterexample :
    cleanLoopV1 sumEntry PROBLEMATIC_TOOL_IDS sumEntry 0 = (false, sumEntry, 0) ∧
    deepCleanRunV1 v1CexLog = [stringifyEntry sumEntry] ∧
    stringifyEntry sumEntry ≠ sumRawSpaced ∧
    sumRawSpaced ∉ deepCleanRunV1 v1CexLog := by
  refine ⟨by decide, by decide, by decide, by decide⟩

/-- C3 amended: in the fix-session rewriter every record holding no
`tool_use` and no `tool_result` block in its message content is emitted as
its stored raw line, byte-identical to the input; in the v1 deep-clean pass
an untouched record's line survives byte-identically only when the input
line is already in canonical `JSON.stringify` form (the pass re-serializes
every decoded entry). -/
theorem c3_preservation_amended :
    (∀ (log : List LLine) (raw : String) (e : Entry),
      LLine.parsed raw e ∈ log → msgUses e = [] → msgResults e = [] →
      raw ∈ (fixRun log).map LLine.rawOf) ∧
    (∀ (log : List LLine) (raw : String) (e : Entry),
      LLine.parsed raw e ∈ log → trimStr raw ≠ "" →
      (∀ tid ∈ PROBLEMATIC_TOOL_IDS, containsSub (stringifyEntry e) tid = false) →
      stringifyEntry e = raw →
      raw ∈ deepCleanRunV1 log) := by
  constructor
  · intro log raw e hmem hu hr
    unfold fixRun
    by_cases hiss : (fixIssues (scanLog log).lines (scanLog log).tum).isEmpty
    · simp only [hiss, if_true]
      exact List.mem_map.mpr ⟨.parsed raw e, hmem, rfl⟩
    · simp only [hiss, Bool.false_eq_true, if_false]
      obtain ⟨ln, hln⟩ := readLines_mem_of_src raw e log 0 hmem
      have hmem' : (⟨ln, e, raw⟩ : SLine) ∈ scanLines log := by
        rw [scanLines_eq]; exact hln
      exact List.mem_map.mpr
        ⟨.parsed raw e, rewriteGo_keeps _ _ (scanLines log) [] ⟨ln, e, raw⟩ hmem' hu hr, rfl⟩
  · intro log raw e hmem hnb hclean hcanon
    unfold deepCleanRunV1
    by_cases happ : (cleanLinesV1 log).2.1 > 0 || (cleanLinesV1 log).2.2 > 0
    · simp only [happ, if_true]
      exact cleanLinesV1_keeps_parsed raw e hnb hclean hcanon log hmem
    · simp only [happ, Bool.false_eq_true, if_false]
      exact List.mem_map.mpr ⟨.parsed raw e, hmem, rfl⟩

/-- Witness for C3 amended: the assistant text record of Scenario A survives
the rewriter verbatim, and a canonical summary line survives the deep-clean
pass verbatim. -/
theorem c3_preservation_amended_witness :
    (LLine.parsed "W1" exAsstText ∈ scenarioALog ∧ msgUses exAsstText = [] ∧
      msgResults exAsstText = [] ∧ "W1" ∈ (fixRun scenarioALog).map LLine.rawOf) ∧
    (LLine.parsed (stringifyEntry sumEntry) sumEntry ∈ v1WitLog ∧
      trimStr (stringifyEntry sumEntry) ≠ "" ∧
      stringifyEntry sumEntry ∈ deepCleanRunV1 v1WitLog) :=
  ⟨⟨by decide, by decide, by decide,
    c3_preservation_amended.1 scenarioALog "W1" exAsstText (by decide) (by decide) (by decide)⟩,
   ⟨by decide, by decide,
    c3_preservation_amended.2 v1WitLog (stringifyEntry sumEntry) sumEntry (by decide)
      (by decide) (by decide) rfl⟩⟩

/-! ### C4 — lines that fail to decode -/

/-- C4 as stated is false for `fixSession`: its catch block only logs the
parse error, the undecodable line is never stored in `lines`, and the
rewritten output — produced here because the log has a `missing_result`
finding — does not contain it. -/
theorem c4_counterexample :
    (fixIssues (scanLines fixDropLog) (scanTum fixDropLog)).isEmpty = false ∧
    (fixRun fixDropLog).map LLine.rawOf =
      ["U0", stringifyEntry (synthEntry "t1")] ∧
    "this is not json" ∉ (fixRun fixDropLog).map LLine.rawOf := by
  refine ⟨by decide, by decide, by decide⟩

/-- C4 amended: a `ParseError` never aborts a scan — `fixSession` keeps
scanning and stores every later decodable line with its correct line number
(its `lines` array is exactly the Reader's view of the log) — and the v1
deep-clean pass passes every non-blank undecodable line through unmodified;
but `fixSession`'s rewritten output drops undecodable lines, because only
decoded lines enter the `lines` array it is rebuilt from. -/
theorem c4_parse_error_amended :
    (∀ log : List LLine, scanLines log = readLines 0 log) ∧
    (∀ (log : List LLine) (r : String), LLine.unparsed r ∈ log → trimStr r ≠ "" →
      r ∈ deepCleanRunV1 log) := by
  constructor
  · exact scanLines_eq
  · intro log r hmem hnb
    unfold deepCleanRunV1
    by_cases happ : (cleanLinesV1 log).2.1 > 0 || (cleanLinesV1 log).2.2 > 0
    · simp only [happ, if_true]
      exact cleanLinesV1_keeps_unparsed r hnb log hmem
    · simp only [happ, Bool.false_eq_true, if_false]
      exact List.mem_map.mpr ⟨.unparsed r, hmem, rfl⟩

/-- Witness for C4 amended: an undecodable first line leaves the following
invocation tracked at line 2, and survives the deep-clean pass. -/
theorem c4_parse_error_amended_witness :
    scanLines c4WitLog = readLines 0 c4WitLog ∧
    (LLine.unparsed "oops" ∈ c4WitLog ∧ trimStr "oops" ≠ "" ∧
      "oops" ∈ deepCleanRunV1 c4WitLog) ∧
    scanLines c4WitLog = [⟨2, exUseEntry, "U0"⟩] :=
  ⟨c4_parse_error_amended.1 c4WitLog,
   ⟨by decide, by decide,
    c4_parse_error_amended.2 c4WitLog "oops" (by decide) (by decide)⟩,
   by decide⟩

/-! ### Helper lemmas for the v2 text cleaning -/

theorem bFindFrom_none_mono (pat : List Char) :
    ∀ (s : List Char) (prev : Option Char) (pos : Nat),
      bFindFrom pat prev pos 0 s = none → ∀ st, bFindFrom pat prev pos st s = none := by
  intro s
  induction s with
  | nil => intro prev pos _ st; rfl
  | cons c rest ih =>
    intro prev pos h st
    by_cases hb : bMatchHere pat prev (c :: rest) = true
    · exfalso
      simp [bFindFrom, hb] at h
    · have hb' : bMatchHere pat prev (c :: rest) = false := by simpa using hb
      simp only [bFindFrom, hb', Bool.and_false, Bool.false_eq_true, if_false] at h ⊢
      exact ih (some c) (pos + 1) h st

theorem gTest_of_bContains_false (pat s : String) (h : bContains pat s = false) :
    ∀ li, gTest pat s li = (false, 0) := by
  intro li
  have hnone : bFindFrom pat.data none 0 0 s.data = none := by
    cases hf : bFindFrom pat.data none 0 0 s.data with
    | none => rfl
    | some i => exfalso; simp [bContains, gTest, hf] at h
  simp [gTest, bFindFrom_none_mono pat.data s.data none 0 hnone li]

theorem textStep_nonmatch (tid : String) (b : Block) (h : matchingText tid b = false) :
    textStep tid b = some b := by
  cases b with
  | text t =>
    simp only [matchingText] at h
    simp only [textStep]
    rw [if_neg]
    simp only [Bool.and_eq_true, decide_eq_true_eq, not_and]
    intro ht hbc
    rw [hbc] at h
    simp [ht] at h
  | toolUse id nm => rfl
  | toolResult t e c => rfl
  | other => rfl

theorem filterMap_textStep_id (tid : String) :
    ∀ bs : List Block, (∀ b ∈ bs, matchingText tid b = false) →
      bs.filterMap (textStep tid) = bs := by
  intro bs
  induction bs with
  | nil => intro _; rfl
  | cons b rest ih =>
    intro h
    rw [List.filterMap_cons, textStep_nonmatch tid b (h b (List.mem_cons_self _ _))]
    rw [ih fun x hx => h x (List.mem_cons_of_mem _ hx)]

theorem v2CleanBlocks_noMatch (tid : String) :
    ∀ (bs : List Block) (li : Nat), (∀ b ∈ bs, matchingText tid b = false) →
      (v2CleanBlocks tid bs li).1 = bs ∧ (v2CleanBlocks tid bs li).2.1 = false := by
  intro bs
  induction bs with
  | nil => intro li _; exact ⟨rfl, rfl⟩
  | cons b rest ih =>
    intro li h
    have hb := h b (List.mem_cons_self _ _)
    have hrest := fun x hx => h x (List.mem_cons_of_mem _ hx)
    cases b with
    | text t =>
      by_cases ht : t = ""
      · subst ht
        simp only [v2CleanBlocks]
        simp only [ne_eq, not_true_eq_false, Bool.false_eq_true, if_false]
        have := ih li hrest
        exact ⟨by simp [this.1], by simp [this.2]⟩
      · have hbc : bContains tid t = false := by
          simp only [matchingText] at hb
          simpa [ht] using hb
        have hg := gTest_of_bContains_false tid t hbc li
        simp only [v2CleanBlocks]
        rw [hg]
        simp only [ne_eq, ht, not_false_eq_true, if_true, Bool.false_eq_true, if_false]
        have := ih 0 hrest
        exact ⟨by simp [this.1], by simp [this.2]⟩
    | toolUse id nm =>
      simp only [v2CleanBlocks]
      have := ih li hrest
      exact ⟨by simp [this.1], by simp [this.2]⟩
    | toolResult t e c =>
      simp only [v2CleanBlocks]
      have := ih li hrest
      exact ⟨by simp [this.1], by simp [this.2]⟩
    | other =>
      simp only [v2CleanBlocks]
      have := ih li hrest
      exact ⟨by simp [this.1], by simp [this.2]⟩

theorem v2CleanBlocks_filterMap (tid : String) :
    ∀ bs : List Block, (bs.filter (matchingText tid)).length ≤ 1 →
      (v2CleanBlocks tid bs 0).1 = bs.filterMap (textStep tid) := by
  intro bs
  induction bs with
  | nil => intro _; rfl
  | cons b rest ih =>
    intro h
    by_cases hm : matchingText tid b = true
    · have hrest : ∀ x ∈ rest, matchingText tid x = false := by
        have hnil : rest.filter (matchingText tid) = [] := by
          rw [List.filter_cons_of_pos hm] at h
          simp only [List.length_cons] at h
          exact List.length_eq_zero.mp (by omega)
        intro x hx
        by_contra hxx
        have hxmem : x ∈ rest.filter (matchingText tid) :=
          List.mem_filter.mpr ⟨hx, by simpa using hxx⟩
        rw [hnil] at hxmem
        simp at hxmem
      obtain ⟨t, rfl⟩ : ∃ t, b = Block.text t := by
        cases b with
        | text t => exact ⟨t, rfl⟩
        | toolUse id nm => simp [matchingText] at hm
        | toolResult x y z => simp [matchingText] at hm
        | other => simp [matchingText] at hm
      have hparts : ¬(t = "") ∧ bContains tid t = true := by
        simpa [matchingText] using hm
      have ht : ¬(t = "") := hparts.1
      have hbc : bContains tid t = true := hparts.2
      have hg1 : (gTest tid t 0).1 = true := hbc
      have hnm0 := v2CleanBlocks_noMatch tid rest (gTest tid t 0).2 hrest
      have hnm1 := v2CleanBlocks_noMatch tid rest 0 hrest
      have hid := filterMap_textStep_id tid rest hrest
      by_cases hh : errHeuristic t = true
      · by_cases hlt : (((splitLines t).filter fun ln => !containsSub ln tid).length <
            (splitLines t).length)
        · by_cases hemp : trimStr (trimStr (joinNl ((splitLines t).filter
              fun ln => !containsSub ln tid))) = ""
          · simp [v2CleanBlocks, textStep, ht, hbc, hg1, hh, hlt, hemp, hnm0.1, hid]
          · simp [v2CleanBlocks, textStep, ht, hbc, hg1, hh, hlt, hemp, hnm0.1, hid]
        · simp [v2CleanBlocks, textStep, ht, hbc, hg1, hh, hlt, hnm0.1, hid]
      · have hh' : errHeuristic t = false := by simpa using hh
        simp [v2CleanBlocks, textStep, ht, hbc, hg1, hh', hnm1.1, hid]
    · have hm' : matchingText tid b = false := by simpa using hm
      have hlen : (rest.filter (matchingText tid)).length ≤ 1 := by
        rw [List.filter_cons_of_neg (by simp [hm'])] at h
        exact h
      rw [List.filterMap_cons, textStep_nonmatch tid b hm']
      cases b with
      | text t =>
        by_cases ht : t = ""
        · subst ht
          simp only [v2CleanBlocks]
          simp only [ne_eq, not_true_eq_false, Bool.false_eq_true, if_false]
          rw [ih hlen]
        · have hbc : bContains tid t = false := by
            simp only [matchingText] at hm'
            simpa [ht] using hm'
          have hg := gTest_of_bContains_false tid t hbc 0
          simp only [v2CleanBlocks]
          rw [hg]
          simp only [ne_eq, ht, not_false_eq_true, if_true, Bool.false_eq_true, if_false]
          rw [ih hlen]
      | toolUse id nm =>
        simp only [v2CleanBlocks]
        rw [ih hlen]
      | toolResult x y z =>
        simp only [v2CleanBlocks]
        rw [ih hlen]
      | other =>
        simp only [v2CleanBlocks]
        rw [ih hlen]

/-! ### C8 — poisoned ids in free text -/

/-- C8 as stated is false at the "dropping the whole Record if it becomes
contentless" clause: a record whose single text block is an error line
mentioning the poisoned id has that block stripped and removed, yet the
record is **not** dropped — `preciselCleanEntry` reports it cleaned, not
removed, and leaves it with an empty content list. -/
theorem c8_counterexample :
    (preciselCleanEntry errTextEntry poisonedId1).removed = false ∧
    (preciselCleanEntry errTextEntry poisonedId1).cleaned = true ∧
    (preciselCleanEntry errTextEntry poisonedId1).entry.message =
      some ⟨"assistant", some []⟩ := by
  refine ⟨by decide, by decide, by decide⟩

/-- C8 amended: for a record the structural-removal paths do not fire on (no
`tool_use`/`tool_result` block carrying the poisoned id) and whose message
content holds at most one text block with a word-bounded occurrence of the
id (the shared global regex's `lastIndex` can skip further matching blocks),
the record is never dropped and each text block is transformed per block:
when the block also contains (case-insensitively) "error", `tool_use` or
`tool_result`, exactly its lines containing the id are removed (the
surviving text re-joined and trimmed; the block removed when it becomes
empty — the record itself is retained even when its content list becomes
empty); otherwise every word-bounded occurrence in the block is replaced
with the `[REDACTED_TOOL_ID]` placeholder; other blocks are unchanged. -/
theorem c8_text_clean_amended (e : Entry) (tid : String)
    (h1 : hasPoisonedUse e tid = false) (h2 : hasPoisonedResult e tid = false)
    (h3 : matchCount tid e ≤ 1) :
    (preciselCleanEntry e tid).removed = false ∧
    (preciselCleanEntry e tid).entry.message =
      e.message.map fun m => ⟨m.role, m.content.map fun bs => bs.filterMap (textStep tid)⟩ := by
  unfold preciselCleanEntry
  simp only [h1, Bool.false_eq_true, if_false, h2]
  cases hm : e.message with
  | none => exact ⟨trivial, rfl⟩
  | some m =>
    cases hc : m.content with
    | none =>
      refine ⟨trivial, ?_⟩
      simp only [hc, Option.map_none', Option.map_some']
      cases m with
      | mk role content =>
        simp only at hc
        subst hc
        rfl
    | some bs =>
      have key := v2CleanBlocks_filterMap tid bs (by simpa [matchCount, hm, hc] using h3)
      refine ⟨trivial, ?_⟩
      simp only [hc, Option.map_some', key]

/-- Witness for C8 amended: a record whose text block merely mentions the
poisoned id is redacted in place and kept. -/
theorem c8_text_clean_amended_witness :
    hasPoisonedUse redactTextEntry poisonedId1 = false ∧
    hasPoisonedResult redactTextEntry poisonedId1 = false ∧
    matchCount poisonedId1 redactTextEntry ≤ 1 ∧
    ((preciselCleanEntry redactTextEntry poisonedId1).removed = false ∧
     (preciselCleanEntry redactTextEntry poisonedId1).entry.message =
       redactTextEntry.message.map fun m =>
         ⟨m.role, m.content.map fun bs => bs.filterMap (textStep poisonedId1)⟩) :=
  ⟨by decide, by decide, by decide,
   c8_text_clean_amended redactTextEntry poisonedId1 (by decide) (by decide) (by decide)⟩

end SessionRepair
